import Mathlib

/-! FT_IPC_PRACTICE: file transfer over System V message queues and FIFOs.

A shallow embedding of the four programs `client_mp.c`, `server_mp.c`,
`client_pipe.c` and `server_pipe.c`, and theorems about it.

Conventions of the embedding.

* A C string is a `List Char`; the text a `char*` denotes stops at the first
  NUL (`cstr`).  Buffer capacities other than `MSG_BUFFER_SZ` (the size passed
  to `msgrcv` and `read`) are not modelled.
* A C `int` is an `Int`; where the source stores a converted value in an `int`
  the value is wrapped to 32 bits (`wrap32`).
* A file or a message payload is a `List Nat` of bytes.
* A loop of the source is a recursive function; a loop that is not structurally
  recursive takes a fuel argument that bounds the number of iterations.
-/

namespace FtIpc

/-! ## Part 1: the request protocol (`sprintf` in the clients, `sscanf` in the servers) -/

/-- The constant `MSG_BUFFER_SZ` (all four files). -/
def MSG_BUFFER_SZ : Nat := 2048

/-- C `isspace` in the "C" locale: space, `\t`, `\n`, `\v`, `\f`, `\r`. -/
def isspace (c : Char) : Bool :=
  c.toNat == 32 || (9 ≤ c.toNat && c.toNat ≤ 13)

/-- C `isdigit`. -/
def isdigit (c : Char) : Bool :=
  48 ≤ c.toNat && c.toNat ≤ 57

/-- The text a `char*` denotes: the characters before the first NUL. -/
def cstr (buf : List Char) : List Char :=
  buf.takeWhile (fun c => c.toNat != 0)

/-- Storing a converted value in a C `int` (two's complement, 32 bits). -/
def wrap32 (v : Int) : Int :=
  (v + 2147483648) % 4294967296 - 2147483648

/-- The values of a C `int`. -/
def is_int32 (v : Int) : Prop :=
  -2147483648 ≤ v ∧ v ≤ 2147483647

instance (v : Int) : Decidable (is_int32 v) := by
  unfold is_int32; infer_instance

/-- The decimal digits of `n`, least significant first; `fuel` bounds the number of digits. -/
def digits_rev : Nat → Nat → List Char
  | 0, _ => []
  | fuel + 1, n =>
    if n < 10 then [Char.ofNat (48 + n)]
    else Char.ofNat (48 + n % 10) :: digits_rev fuel (n / 10)

/-- The digits `sprintf` writes for a natural number. -/
def print_nat (n : Nat) : List Char :=
  (digits_rev (n + 1) n).reverse

/-- The text of `sprintf("%d", v)`. -/
def sprintf_d (v : Int) : List Char :=
  if v < 0 then '-' :: print_nat v.natAbs else print_nat v.natAbs

/-- A value `sscanf` stores through one of its pointer arguments. -/
inductive Arg where
  | int (v : Int)
  | str (v : List Char)
  deriving DecidableEq, Repr

/-- The value of a run of decimal digits. -/
def digits_value (ds : List Char) : Nat :=
  ds.foldl (fun acc c => acc * 10 + (c.toNat - 48)) 0

/-- The text `sprintf` writes for a locator: `%d` for a queue key, `%s` for a FIFO path. -/
def sprintf_locator : Arg → List Char
  | Arg.int k => sprintf_d k
  | Arg.str p => p

/-- One entry of the batch as `main` of a client holds it in its loop:
the index test `i < upload_cnt`, the size from `stat`, the bare file name and
the locator of the channel made for the entry. -/
structure Entry where
  is_upload : Bool
  filesize : Int
  filename : List Char
  locator : Arg
  deriving DecidableEq, Repr

/-- The record of one entry: `sprintf(temp, "%d %d %s %d\n", ...)` (client_mp.c) and
`sprintf(temp, "%d %d %s %s\n", ...)` (client_pipe.c). -/
def sprintf_record (e : Entry) : List Char :=
  sprintf_d (if e.is_upload then 1 else 0) ++ ' ' :: sprintf_d e.filesize ++ ' ' ::
    e.filename ++ ' ' :: sprintf_locator e.locator ++ ['\n']

/-- The request text `main` builds: the records of the entries, one after another. -/
def build_request : List Entry → List Char
  | [] => []
  | e :: es => sprintf_record e ++ build_request es

/-- A token of the wire format: a non-empty C string without white space. -/
def is_token (t : List Char) : Prop :=
  t ≠ [] ∧ ∀ c ∈ t, isspace c = false ∧ c.toNat ≠ 0

instance (t : List Char) : Decidable (is_token t) := by
  unfold is_token; infer_instance

/-- A locator an entry may carry: a key that is a C `int`, or a path that is a token. -/
def locator_ok : Arg → Prop
  | Arg.int k => is_int32 k
  | Arg.str p => is_token p

instance (a : Arg) : Decidable (locator_ok a) := by
  cases a <;> unfold locator_ok <;> infer_instance

/-- The entries the round trip is stated for: the size is a C `int`, the file
name is a token and the locator is a key or a token. -/
def entry_ok (e : Entry) : Prop :=
  is_int32 e.filesize ∧ is_token e.filename ∧ locator_ok e.locator

instance (e : Entry) : Decidable (entry_ok e) := by
  unfold entry_ok; infer_instance

/-- What a poll of the channel observes: `msg_qbytes` and `__msg_cbytes` of
`msgctl(IPC_STAT)`, or `fcntl(F_GETPIPE_SZ)` and `ioctl(FIONREAD)` of a FIFO. -/
structure Stat where
  qbytes : Nat
  cbytes : Nat
  deriving DecidableEq, Repr

/-- The result of `msgrcv` or of `read`: the bytes delivered, or -1. -/
inductive Rd where
  | data (bytes : List Nat)
  | err
  deriving DecidableEq, Repr

/-- The result of a send on the channel: done, failed, or not returned. -/
inductive Res where
  | ok
  | fail
  | stuck
  deriving DecidableEq, Repr

/-- The calls a worker issues on its channel and on its destination file. -/
inductive Ev where
  /-- A poll: `msgctl(IPC_STAT)`, or `ioctl(FIONREAD)` with or without
  `fcntl(F_GETPIPE_SZ)`; `none` when the call fails. -/
  | poll (st : Option Stat)
  /-- A send, `msgsnd` or `write`, of a chunk of the file; a FIFO write has tag 0. -/
  | snd (mtype : Int) (data : List Nat) (res : Res)
  /-- A send, `msgsnd` or `write`, of the 4-byte size header. -/
  | hdr (mtype : Int) (size : Int) (res : Res)
  /-- A receive, `msgrcv` or `read`, on the channel. -/
  | rcv (r : Rd)
  /-- A `write` on the destination file. -/
  | put (data : List Nat)
  /-- The destroy: `msgctl(IPC_RMID)` on the queue, or `unlink` of the FIFO path. -/
  | rmid
  /-- The `close` of the FIFO descriptor. -/
  | close_chan
  /-- The `unlink` of the destination file. -/
  | unlink_dest
  deriving DecidableEq, Repr

/-- How far a worker got: it returned `code`, or it has not returned. -/
inductive Outcome where
  | ret (code : Int)
  | blocked
  deriving DecidableEq, Repr

/-- The answers one worker receives. -/
structure World where
  /-- The local file to send: its content, `none` when `open` fails. -/
  file : Option (List Nat)
  /-- The number of reads of the local file that succeed before one fails
  (`upload` of `client_pipe.c` only). -/
  read_err : Option Nat
  /-- Whether `open` of the destination file succeeds. -/
  dest_ok : Bool
  /-- Whether the channel is there: `msgq_ids[idx] >= 0`, `msgget` or `open` of the FIFO. -/
  chan_ok : Bool
  /-- The results of the sends that return, in order (`true`: success). -/
  snds : List Bool
  /-- The results of the polls, in order. -/
  polls : List (Option Stat)
  /-- The results of the receives that return, in order. -/
  rcvs : List Rd
  /-- Whether the destroy whose result the source tests succeeds. -/
  rmid_ok : Bool
  /-- The indeterminate content of the receive buffer before the first receive. -/
  stale : List Nat
  /-- The indeterminate content of `msqstat` before the first `msgctl`. -/
  msqstat0 : Stat
  deriving Repr

/-- The successive results of `read(fd, buffer, MSG_BUFFER_SZ)` on a regular
file before the read that returns 0; `fuel` bounds their number. -/
def reads_of : Nat → List Nat → List (List Nat)
  | 0, _ => []
  | fuel + 1, content =>
    if content = [] then []
    else content.take MSG_BUFFER_SZ :: reads_of fuel (content.drop MSG_BUFFER_SZ)

/-- The chunks a sender reads from a file: every read takes at least one byte. -/
def file_chunks (content : List Nat) : List (List Nat) :=
  reads_of content.length content

/-- The four bytes of a C `int` in memory (little endian, two's complement). -/
def le32 (v : Int) : List Nat :=
  let u := (v % 4294967296).toNat
  [u % 256, u / 256 % 256, u / 65536 % 256, u / 16777216 % 256]

/-- The C `int` read from the first four bytes of a buffer. -/
def of_le32 (b : List Nat) : Int :=
  wrap32 ((b.getD 0 0 % 256 + 256 * (b.getD 1 0 % 256) + 65536 * (b.getD 2 0 % 256) +
    16777216 * (b.getD 3 0 % 256) : Nat) : Int)

/-- Prepending the calls already issued to the rest of a run. -/
def after (evs : List Ev) (r : Outcome × List Ev) : Outcome × List Ev :=
  (r.1, evs ++ r.2)

/-- The difference `msg_qbytes - __msg_cbytes` in `unsigned long` arithmetic. -/
def free_bytes (st : Stat) : Nat :=
  (st.qbytes % 18446744073709551616 + 18446744073709551616 - st.cbytes % 18446744073709551616) %
    18446744073709551616

/-- The function `get_remain_fifo_size`: `fcntl(F_GETPIPE_SZ) - sz` with `sz` from
`ioctl(FIONREAD)`; when the calls fail `fcntl` returns -1 and `sz` keeps its 0. -/
def get_remain_fifo_size : Option Stat → Int
  | some st => (st.qbytes : Int) - (st.cbytes : Int)
  | none => -1

/-- The function `get_used_fifo_size`: `sz` from `ioctl(FIONREAD)`, 0 when the call fails. -/
def get_used_fifo_size : Option Stat → Int
  | some st => (st.cbytes : Int)
  | none => 0

/-! ### Send side -/

/-- The drain loop that ends `upload` of `client_mp.c`. -/
def drain_upload_mp : List (Option Stat) → Outcome × List Ev
  | [] => (Outcome.blocked, [])
  | none :: _ => (Outcome.ret (-5), [Ev.poll none, Ev.rmid])
  | some st :: polls =>
    if st.cbytes = 0 then (Outcome.ret 1, [Ev.poll (some st)])
    else after [Ev.poll (some st)] (drain_upload_mp polls)

/-- The read and send loop of `upload` of `client_mp.c`, then its drain loop. -/
def upload_loop_mp : List (List Nat) → Int → List Bool → List (Option Stat) → Outcome × List Ev
  | [], _, _, polls => drain_upload_mp polls
  | chunk :: chunks, mtype, snds, polls =>
    match snds with
    | [] => (Outcome.blocked, [Ev.snd mtype chunk Res.stuck])
    | false :: _ => (Outcome.ret (-4), [Ev.snd mtype chunk Res.fail, Ev.rmid])
    | true :: snds =>
      after [Ev.snd mtype chunk Res.ok] (upload_loop_mp chunks (mtype + 1) snds polls)

/-- The function `upload` of `client_mp.c`. -/
def upload_mp (w : World) : Outcome × List Ev :=
  match w.file with
  | none => (Outcome.ret (-2), [])
  | some content =>
    if w.chan_ok = false then (Outcome.ret (-1), [])
    else upload_loop_mp (file_chunks content) 1 w.snds w.polls

/-- The busy-wait `while (get_remain_fifo_size(fifo_fd) < read_len);` of
`client_pipe.c` and its twin in `server_pipe.c`: the polls issued, and the
polls left when the wait ends. -/
def wait_remain_pipe (read_len : Nat) : List (Option Stat) → Option (List (Option Stat)) × List Ev
  | [] => (none, [])
  | a :: polls =>
    if get_remain_fifo_size a < (read_len : Int) then
      ((wait_remain_pipe read_len polls).1, Ev.poll a :: (wait_remain_pipe read_len polls).2)
    else (some polls, [Ev.poll a])

/-- The drain loop `while (get_used_fifo_size(fifo_fd));` of `upload` of `client_pipe.c`. -/
def drain_upload_pipe : List (Option Stat) → Outcome × List Ev
  | [] => (Outcome.blocked, [])
  | a :: polls =>
    if get_used_fifo_size a ≠ 0 then after [Ev.poll a] (drain_upload_pipe polls)
    else (Outcome.ret 1, [Ev.poll a, Ev.close_chan])

/-- The results of the reads of `upload` of `client_pipe.c`: the chunks of the
file, cut short by an error after `read_err` reads. -/
def reads_pipe (content : List Nat) : Option Nat → List Rd
  | none => (file_chunks content).map Rd.data
  | some k => ((file_chunks content).take k).map Rd.data ++ [Rd.err]

/-- The read and write loop of `upload` of `client_pipe.c`, then its drain loop. -/
def upload_loop_pipe : List Rd → List Bool → List (Option Stat) → Outcome × List Ev
  | [], _, polls => drain_upload_pipe polls
  | Rd.err :: _, _, _ => (Outcome.ret (-3), [])
  | Rd.data chunk :: reads, snds, polls =>
    match wait_remain_pipe chunk.length polls with
    | (none, evs) => (Outcome.blocked, evs)
    | (some polls, evs) =>
      match snds with
      | [] => (Outcome.blocked, evs ++ [Ev.snd 0 chunk Res.stuck])
      | false :: _ => (Outcome.ret (-4), evs ++ [Ev.snd 0 chunk Res.fail, Ev.rmid])
      | true :: snds =>
        after (evs ++ [Ev.snd 0 chunk Res.ok]) (upload_loop_pipe reads snds polls)

/-- The function `upload` of `client_pipe.c`. -/
def upload_pipe (w : World) : Outcome × List Ev :=
  match w.file with
  | none => (Outcome.ret (-2), [Ev.rmid])
  | some content =>
    if w.chan_ok = false then (Outcome.ret (-1), [Ev.rmid])
    else upload_loop_pipe (reads_pipe content w.read_err) w.snds w.polls

/-- The capacity wait of `send_download` of `server_mp.c`: `msgctl(IPC_STAT)`,
whose result is not tested, fills `msqstat` when it succeeds; the wait ends
when `msg_qbytes - __msg_cbytes > MSG_BUFFER_SZ`. -/
def wait_capacity_mp (msqstat : Stat) :
    List (Option Stat) → Option (Stat × List (Option Stat)) × List Ev
  | [] => (none, [])
  | a :: polls =>
    if free_bytes (a.getD msqstat) > MSG_BUFFER_SZ then (some (a.getD msqstat, polls), [Ev.poll a])
    else ((wait_capacity_mp (a.getD msqstat) polls).1,
      Ev.poll a :: (wait_capacity_mp (a.getD msqstat) polls).2)

/-- The drain loop that ends `send_download` of `server_mp.c`. -/
def drain_download_mp : List (Option Stat) → Outcome × List Ev
  | [] => (Outcome.blocked, [])
  | none :: _ => (Outcome.ret (-3), [Ev.poll none])
  | some st :: polls =>
    if st.cbytes = 0 then (Outcome.ret 0, [Ev.poll (some st)])
    else after [Ev.poll (some st)] (drain_download_mp polls)

/-- The read and send loop of `send_download` of `server_mp.c`, then its
drain loop; `mtype` is the tag of the previous message. -/
def download_loop_mp : List (List Nat) → Int → Stat → List Bool → List (Option Stat) →
    Outcome × List Ev
  | [], _, _, _, polls => drain_download_mp polls
  | chunk :: chunks, mtype, msqstat, snds, polls =>
    match wait_capacity_mp msqstat polls with
    | (none, evs) => (Outcome.blocked, evs)
    | (some (msqstat, polls), evs) =>
      match snds with
      | [] => (Outcome.blocked, evs ++ [Ev.snd (mtype + 1) chunk Res.stuck])
      | false :: _ => (Outcome.ret (-4), evs ++ [Ev.snd (mtype + 1) chunk Res.fail, Ev.rmid])
      | true :: snds =>
        after (evs ++ [Ev.snd (mtype + 1) chunk Res.ok])
          (download_loop_mp chunks (mtype + 1) msqstat snds polls)

/-- The function `send_download` of `server_mp.c`; the size sent is `st.st_size` stored in an `int`. -/
def send_download_mp (w : World) : Outcome × List Ev :=
  match w.file with
  | none => (Outcome.ret (-1), [])
  | some content =>
    if w.chan_ok = false then (Outcome.ret (-2), [])
    else
      match w.snds with
      | [] => (Outcome.blocked, [Ev.hdr 1 (wrap32 content.length) Res.stuck])
      | false :: _ => (Outcome.ret (-3), [Ev.hdr 1 (wrap32 content.length) Res.fail, Ev.rmid])
      | true :: snds =>
        after [Ev.hdr 1 (wrap32 content.length) Res.ok]
          (download_loop_mp (file_chunks content) 1 w.msqstat0 snds w.polls)

/-- The read and write loop of `send_download` of `server_pipe.c`; the loop
after it is `while(0)`, so the function closes the FIFO and returns 0. -/
def download_loop_pipe : List (List Nat) → List Bool → List (Option Stat) → Outcome × List Ev
  | [], _, _ => (Outcome.ret 0, [Ev.close_chan])
  | chunk :: chunks, snds, polls =>
    match wait_remain_pipe chunk.length polls with
    | (none, evs) => (Outcome.blocked, evs)
    | (some polls, evs) =>
      match snds with
      | [] => (Outcome.blocked, evs ++ [Ev.snd 0 chunk Res.stuck])
      | false :: _ => (Outcome.ret (-4), evs ++ [Ev.snd 0 chunk Res.fail, Ev.close_chan])
      | true :: snds =>
        after (evs ++ [Ev.snd 0 chunk Res.ok]) (download_loop_pipe chunks snds polls)

/-- The function `send_download` of `server_pipe.c`. -/
def send_download_pipe (w : World) : Outcome × List Ev :=
  match w.file with
  | none => (Outcome.ret (-1), [])
  | some content =>
    if w.chan_ok = false then (Outcome.ret (-2), [])
    else
      match w.snds with
      | [] => (Outcome.blocked, [Ev.hdr 0 (wrap32 content.length) Res.stuck])
      | false :: _ =>
        (Outcome.ret (-3), [Ev.hdr 0 (wrap32 content.length) Res.fail, Ev.close_chan])
      | true :: snds =>
        after [Ev.hdr 0 (wrap32 content.length) Res.ok]
          (download_loop_pipe (file_chunks content) snds w.polls)

/-! ### Receive side -/

/-- How the receive loop ends: by a `break`, by a failed receive, or not yet. -/
inductive LoopEnd where
  | done
  | failed
  | waiting
  deriving DecidableEq, Repr

/-- The `while(1)` loop shared by `receive_upload` and `download`: receive at
most `MSG_BUFFER_SZ` bytes, stop on 0 bytes or on an error, write the bytes to
the file, add their number to `accum` (a C `int`) and stop when `accum` equals
`filesize`. -/
def receive_loop (filesize : Int) : Int → List Rd → LoopEnd × List Ev
  | _, [] => (LoopEnd.waiting, [])
  | _, Rd.err :: _ => (LoopEnd.failed, [Ev.rcv Rd.err])
  | accum, Rd.data bytes :: rcvs =>
    if (bytes.take MSG_BUFFER_SZ).length = 0 then (LoopEnd.done, [Ev.rcv (Rd.data bytes)])
    else if wrap32 (accum + (bytes.take MSG_BUFFER_SZ).length) = filesize then
      (LoopEnd.done, [Ev.rcv (Rd.data bytes), Ev.put (bytes.take MSG_BUFFER_SZ)])
    else
      ((receive_loop filesize (wrap32 (accum + (bytes.take MSG_BUFFER_SZ).length)) rcvs).1,
        Ev.rcv (Rd.data bytes) :: Ev.put (bytes.take MSG_BUFFER_SZ) ::
          (receive_loop filesize (wrap32 (accum + (bytes.take MSG_BUFFER_SZ).length)) rcvs).2)

/-- The bytes a run wrote to the destination file, in order. -/
def written : List Ev → List Nat
  | [] => []
  | Ev.put data :: evs => data ++ written evs
  | _ :: evs => written evs

/-- The destination file after a run: the file is opened without `O_TRUNC`
and written from offset 0. -/
def dest_after (dest : List Nat) (evs : List Ev) : List Nat :=
  written evs ++ dest.drop (written evs).length

/-- The function `receive_upload` of `server_mp.c` for a request of size
`filesize`; the test `pipe < 0` on the address of the function `pipe` never holds. -/
def receive_upload_mp (filesize : Int) (w : World) : Outcome × List Ev :=
  if w.dest_ok = false then (Outcome.ret (-1), [])
  else
    match receive_loop filesize 0 w.rcvs with
    | (LoopEnd.waiting, evs) => (Outcome.blocked, evs)
    | (LoopEnd.failed, evs) => (Outcome.ret (-3), evs ++ [Ev.rmid])
    | (LoopEnd.done, evs) => (Outcome.ret 0, evs ++ [Ev.rmid])

/-- The function `receive_upload` of `server_pipe.c`. -/
def receive_upload_pipe (filesize : Int) (w : World) : Outcome × List Ev :=
  if w.dest_ok = false then (Outcome.ret (-1), [])
  else
    match receive_loop filesize 0 w.rcvs with
    | (LoopEnd.waiting, evs) => (Outcome.blocked, evs)
    | (LoopEnd.failed, evs) => (Outcome.ret (-3), evs ++ [Ev.close_chan, Ev.rmid])
    | (LoopEnd.done, evs) => (Outcome.ret 0, evs ++ [Ev.close_chan, Ev.rmid])

/-- The size `download` reads from its buffer after the receive of the header:
the bytes received, at most 4, then what the buffer held before. -/
def header_size (bytes stale : List Nat) : Int :=
  of_le32 (bytes.take 4 ++ stale.drop (bytes.take 4).length)

/-- The function `download` of `client_mp.c`.  When the destination cannot be
opened the queue is removed, and the function returns -2 only if that removal
fails; otherwise it goes on to receive. -/
def download_mp (w : World) : Outcome × List Ev :=
  if w.chan_ok = false then (Outcome.ret (-1), [])
  else if w.dest_ok = false ∧ w.rmid_ok = false then (Outcome.ret (-2), [Ev.rmid])
  else
    after (if w.dest_ok = false then [Ev.rmid] else [])
      (match w.rcvs with
      | [] => (Outcome.blocked, [])
      | Rd.err :: _ => (Outcome.ret (-3), [Ev.rcv Rd.err, Ev.rmid])
      | Rd.data bytes :: rcvs =>
        after [Ev.rcv (Rd.data bytes)]
          (match receive_loop (header_size bytes w.stale) 0 rcvs with
          | (LoopEnd.waiting, evs) => (Outcome.blocked, evs)
          | (LoopEnd.failed, evs) => (Outcome.ret (-3), evs ++ [Ev.rmid])
          | (LoopEnd.done, evs) => (Outcome.ret 1, evs ++ [Ev.rmid])))

/-- The function `download` of `client_pipe.c`. -/
def download_pipe (w : World) : Outcome × List Ev :=
  if w.chan_ok = false then (Outcome.ret (-1), [Ev.unlink_dest, Ev.rmid])
  else if w.dest_ok = false then (Outcome.ret (-2), [Ev.close_chan, Ev.unlink_dest, Ev.rmid])
  else
    match w.rcvs with
    | [] => (Outcome.blocked, [])
    | Rd.err :: _ => (Outcome.ret (-3), [Ev.rcv Rd.err, Ev.close_chan, Ev.unlink_dest, Ev.rmid])
    | Rd.data bytes :: rcvs =>
      after [Ev.rcv (Rd.data bytes)]
        (match receive_loop (header_size bytes w.stale) 0 rcvs with
        | (LoopEnd.waiting, evs) => (Outcome.blocked, evs)
        | (LoopEnd.failed, evs) =>
          (Outcome.ret (-3), evs ++ [Ev.close_chan, Ev.unlink_dest, Ev.rmid])
        | (LoopEnd.done, evs) =>
          (Outcome.ret (if w.rmid_ok then 1 else -5), evs ++ [Ev.close_chan, Ev.rmid]))

/-! ### The client worker and the status table -/

/-- The two transports. -/
inductive Transport where
  | mp
  | pipe
  deriving DecidableEq, Repr

/-- The functions `upload` of the two clients. -/
def upload : Transport → World → Outcome × List Ev
  | Transport.mp => upload_mp
  | Transport.pipe => upload_pipe

/-- The functions `download` of the two clients. -/
def download : Transport → World → Outcome × List Ev
  | Transport.mp => download_mp
  | Transport.pipe => download_pipe

/-- The call `file_task` of a client makes for the index `idx`:
`upload(upload_path[idx], idx)` when `idx < upload_cnt`,
`download(download_path[idx-upload_cnt], idx)` otherwise. -/
def worker_call (t : Transport) (upload_cnt idx : Nat) (w : World) : Outcome × List Ev :=
  if idx < upload_cnt then upload t w else download t w

/-- The stores `file_task` of a client makes into `result_flag`, as pairs of
index and value: `result_flag[idx]` receives the value of the call once the
call has returned. -/
def file_task_stores (t : Transport) (upload_cnt idx : Nat) (w : World) : List (Nat × Int) :=
  match (worker_call t upload_cnt idx w).1 with
  | Outcome.ret code => [(idx, code)]
  | Outcome.blocked => []

/-- The table `result_flag` after the stores. -/
def apply_stores (result_flag : List Int) : List (Nat × Int) → List Int
  | [] => result_flag
  | (i, v) :: stores => apply_stores (result_flag.set i v) stores

/-- The worker `file_task` of a client, on the table `result_flag`. -/
def file_task (t : Transport) (upload_cnt idx : Nat) (w : World) (result_flag : List Int) :
    List Int :=
  apply_stores result_flag (file_task_stores t upload_cnt idx w)

/-- The function `flag_to_state` of the clients; it has no `return` for a flag
that is neither 0, nor negative, nor positive, a case no `int` is in. -/
def flag_to_state (t : Transport) (flag : Int) : String :=
  if flag = 0 then "In progress.."
  else if flag < 0 then
    if flag = -1 then
      (match t with | Transport.mp => "Fail to get essage queue " | Transport.pipe => "Fail to get fifo..")
    else if flag = -2 then "Fail to open file.."
    else if flag = -3 then
      (match t with | Transport.mp => "Fail to msgrcv.." | Transport.pipe => "Fail to read..")
    else if flag = -4 then
      (match t with | Transport.mp => "Fail to msgsnd.." | Transport.pipe => "Fail to write..")
    else if flag = -5 then
      (match t with
        | Transport.mp => "Fail to clear message queue" | Transport.pipe => "Fail to clear fifo..")
    else (match t with
      | Transport.mp => "Fail to process file" | Transport.pipe => "Fail to process file..")
  else "Success!"

/-- The messages a run put on the channel, in order: the payloads of the sends
that succeeded, the header as its four bytes. -/
def sent : List Ev → List (List Nat)
  | [] => []
  | Ev.snd _ data Res.ok :: evs => data :: sent evs
  | Ev.hdr _ size Res.ok :: evs => le32 size :: sent evs
  | _ :: evs => sent evs

/-! ## Part 3: `main` of the clients (channel allocation, request, teardown) -/

/-- The function `strchr`: the text from the first `c` on, `none` when `c`
does not occur in `s`. -/
def strchr (s : List Char) (c : Char) : Option (List Char) :=
  match s.dropWhile (fun x => x != c) with
  | [] => none
  | x :: r => some (x :: r)

/-- The loop of `get_last_filename`: while `strchr(filename, '/')` finds a
slash, `filename` moves to the character after it. -/
def get_last_filename_loop : Nat → List Char → List Char
  | 0, filename => filename
  | fuel + 1, filename =>
    match strchr filename '/' with
    | some temp => get_last_filename_loop fuel (temp.drop 1)
    | none => filename

/-- The function `get_last_filename` of the clients; every turn of its loop
passes at least one character. -/
def get_last_filename (directory : List Char) : List Char :=
  get_last_filename_loop directory.length directory

/-- The constant `IO_MP_KEY_BASE`. -/
def IO_MP_KEY_BASE : Int := 60051

/-- The call `msgget(key, 0666 | IPC_CREAT | IPC_EXCL)` when the keys of
`used` have a queue: -1 for a key in use, else the identifier `qid key` the
kernel gives to the new queue. -/
def msgget_excl (used : List Int) (qid : Int → Nat) (key : Int) : Int :=
  if key ∈ used then -1 else (qid key : Int)

/-- What `get_msg_queue_io` leaves: its return value, the key stored in
`*ipc_key` if any, and the keys it passed to `msgget`, in order. -/
structure KeyAlloc where
  ret : Int
  ipc_key : Option Int
  tried : List Int
  deriving DecidableEq, Repr

/-- The `while` loop of `get_msg_queue_io` from candidate `index` on, with the
keys tried before: `key = IO_MP_KEY_BASE + index`, then `msgget` with
`index++`, and on failure give up when `index >= 10`.  The result is `msgq`,
`key`, `fail` and the keys tried. -/
def get_msg_queue_io_loop (used : List Int) (qid : Int → Nat) :
    Nat → Nat → List Int → Int × Int × Bool × List Int
  | 0, index, tried => (-1, IO_MP_KEY_BASE + index, true, tried)
  | fuel + 1, index, tried =>
    if msgget_excl used qid (IO_MP_KEY_BASE + index) < 0 then
      if index + 1 ≥ 10 then
        (msgget_excl used qid (IO_MP_KEY_BASE + index), IO_MP_KEY_BASE + index, true,
          tried ++ [IO_MP_KEY_BASE + index])
      else get_msg_queue_io_loop used qid fuel (index + 1) (tried ++ [IO_MP_KEY_BASE + index])
    else
      (msgget_excl used qid (IO_MP_KEY_BASE + index), IO_MP_KEY_BASE + index, false,
        tried ++ [IO_MP_KEY_BASE + index])

/-- The function `get_msg_queue_io` of `client_mp.c`; its loop makes at most 10 turns. -/
def get_msg_queue_io (used : List Int) (qid : Int → Nat) : KeyAlloc :=
  match get_msg_queue_io_loop used qid 10 0 [] with
  | (msgq, key, fail, tried) =>
    if fail = false then ⟨msgq, some key, tried⟩ else ⟨-1, none, tried⟩

/-- The value of `filesize` after `stat(filename, &st); filesize = st.st_size;`
in `main`: the size of the file of that name, or, the result of `stat` not
being tested, what `st` held (`junk`) when there is no such file. -/
def stat_filesize (fs : List Char → Option (List Nat)) (junk : Int) (filename : List Char) :
    Int :=
  match fs filename with
  | some content => wrap32 content.length
  | none => wrap32 junk

/-- The path `main` takes for the index `i`: `upload_path[i]` when
`i < upload_cnt`, `download_path[i-upload_cnt]` otherwise. -/
def entry_path (upload_path download_path : List (List Char)) (i : Nat) : List Char :=
  if i < upload_path.length then upload_path.getD i []
  else download_path.getD (i - upload_path.length) []

/-- What `main` of a client has done when it reaches its status loop or
leaves before it. -/
structure MainRun where
  /-- The index of the entry whose channel could not be made, if any. -/
  failed_at : Option Nat
  /-- The channels made, in index order: queue identifiers or FIFO paths. -/
  created : List Arg
  /-- The destroys issued before leaving: `msgctl(IPC_RMID)` or `unlink`. -/
  destroyed : List Arg
  /-- The entries whose record was written in the request buffer. -/
  entries : List Entry
  /-- The request sent on the control channel, if any. -/
  request : Option (List Char)
  /-- The indices handed to `pthread_create`, in order. -/
  workers : List Nat
  /-- The table the workers read their channel from: `msgq_ids` or `fifo_paths`. -/
  table : List Arg
  deriving DecidableEq, Repr

/-- The `for` loop of `main` of `client_mp.c` from index `i` on, with `n`
entries left, then the send of the request and the start of the workers.
`used` are the keys in use, `ids` the identifiers stored in `msgq_ids` so far
and `es` the entries written so far. -/
def main_loop_mp (qid : Int → Nat) (st_size : List Char → Int)
    (upload_path download_path : List (List Char)) :
    Nat → Nat → List Int → List Int → List Entry → MainRun
  | 0, _, _, ids, es =>
    { failed_at := none, created := ids.map Arg.int, destroyed := [], entries := es,
      request := some (build_request es), workers := List.range ids.length,
      table := ids.map Arg.int }
  | n + 1, i, used, ids, es =>
    if (get_msg_queue_io used qid).ret < 0 then
      { failed_at := some i, created := ids.map Arg.int, destroyed := ids.map Arg.int,
        entries := es, request := none, workers := [],
        table := (ids ++ (get_msg_queue_io used qid).ret :: List.replicate n 0).map Arg.int }
    else
      main_loop_mp qid st_size upload_path download_path n (i + 1)
        ((get_msg_queue_io used qid).ipc_key.getD 0 :: used)
        (ids ++ [(get_msg_queue_io used qid).ret])
        (es ++ [⟨decide (i < upload_path.length),
          st_size (get_last_filename (entry_path upload_path download_path i)),
          get_last_filename (entry_path upload_path download_path i),
          Arg.int ((get_msg_queue_io used qid).ipc_key.getD 0)⟩])

/-- The function `main` of `client_mp.c` once the control queue is open, up to
the start of the workers. -/
def main_mp (used : List Int) (qid : Int → Nat) (st_size : List Char → Int)
    (upload_path download_path : List (List Char)) : MainRun :=
  main_loop_mp qid st_size upload_path download_path
    (upload_path.length + download_path.length) 0 used [] []

/-- The path `sprintf(buffer, "./fifo/%d_%d", getpid(), i)` of `client_pipe.c`. -/
def fifo_path (pid i : Int) : List Char :=
  "./fifo/".toList ++ sprintf_d pid ++ '_' :: sprintf_d i

/-- The table `fifo_paths` that `main` of `client_pipe.c` fills before its loop. -/
def fifo_paths (pid : Int) (cnt : Nat) : List (List Char) :=
  (List.range cnt).map (fun (i : Nat) => fifo_path pid (i : Int))

/-- The `for` loop of `main` of `client_pipe.c` from index `i` on, with `n`
entries left, then the write of the request and the start of the workers; on a
failed `mkfifo` or a failed write `main` jumps to `cleanup`, where
`cleanup_fifo` unlinks every path of `fifo_paths`. -/
def main_loop_pipe (pid : Int) (cnt : Nat) (mkfifo_ok : List Char → Bool) (write_ok : Bool)
    (st_size : List Char → Int) (upload_path download_path : List (List Char)) :
    Nat → Nat → List Entry → MainRun
  | 0, i, es =>
    if write_ok then
      { failed_at := none, created := ((fifo_paths pid cnt).take i).map Arg.str, destroyed := [],
        entries := es, request := some (build_request es), workers := List.range cnt,
        table := (fifo_paths pid cnt).map Arg.str }
    else
      { failed_at := none, created := ((fifo_paths pid cnt).take i).map Arg.str,
        destroyed := (fifo_paths pid cnt).map Arg.str, entries := es, request := none,
        workers := [], table := (fifo_paths pid cnt).map Arg.str }
  | n + 1, i, es =>
    if mkfifo_ok (fifo_path pid i) = false then
      { failed_at := some i, created := ((fifo_paths pid cnt).take i).map Arg.str,
        destroyed := (fifo_paths pid cnt).map Arg.str, entries := es, request := none,
        workers := [], table := (fifo_paths pid cnt).map Arg.str }
    else
      main_loop_pipe pid cnt mkfifo_ok write_ok st_size upload_path download_path n (i + 1)
        (es ++ [⟨decide (i < upload_path.length),
          st_size (get_last_filename (entry_path upload_path download_path i)),
          get_last_filename (entry_path upload_path download_path i),
          Arg.str (fifo_path pid i)⟩])

/-- The function `main` of `client_pipe.c` once the control FIFO is open, up
to the start of the workers. -/
def main_pipe (pid : Int) (mkfifo_ok : List Char → Bool) (write_ok : Bool)
    (st_size : List Char → Int) (upload_path download_path : List (List Char)) : MainRun :=
  main_loop_pipe pid (upload_path.length + download_path.length) mkfifo_ok write_ok st_size
    upload_path download_path (upload_path.length + download_path.length) 0 []

/-- The function `cleanup_msq` of `client_mp.c`: the identifiers passed to
`msgctl(IPC_RMID)`, those of the first `msgq_cnt` slots of `msgq_ids` that are
not 0; nothing when `msgq_ids` is a null pointer. -/
def cleanup_msq (msgq_ids : Option (List Int)) (msgq_cnt : Nat) : List Int :=
  match msgq_ids with
  | none => []
  | some ids => (ids.take msgq_cnt).filter (fun id => id != 0)

/-- The function `cleanup_fifo` of `client_pipe.c`: the paths passed to
`unlink`, those of the first `fifo_cnt` slots of `fifo_paths` that are not null. -/
def cleanup_fifo (fifo_paths : Option (List (Option (List Char)))) (fifo_cnt : Nat) :
    List (List Char) :=
  match fifo_paths with
  | none => []
  | some paths => (paths.take fifo_cnt).filterMap id

/-- The tags of the messages a run put on the channel, in order. -/
def put_tags : List Ev → List Int
  | [] => []
  | Ev.snd mtype _ Res.ok :: evs => mtype :: put_tags evs
  | Ev.hdr mtype _ Res.ok :: evs => mtype :: put_tags evs
  | _ :: evs => put_tags evs

/-- The data payloads a run put on the channel, in order: the chunks of the
sends that succeeded, without the header. -/
def sent_data : List Ev → List (List Nat)
  | [] => []
  | Ev.snd _ data Res.ok :: evs => data :: sent_data evs
  | _ :: evs => sent_data evs

/-! ### Concrete worlds used by the witnesses and by the failing inputs -/

/-- A sender of the one-byte file `[7]`: the channel is there, every send
succeeds, the first poll sees one pending byte and the next polls see none. -/
def world_send : World :=
  { file := some [7], read_err := none, dest_ok := true, chan_ok := true,
    snds := [true, true],
    polls := [some ⟨16384, 1⟩, some ⟨16384, 0⟩, some ⟨16384, 0⟩],
    rcvs := [], rmid_ok := true, stale := [], msqstat0 := ⟨16384, 0⟩ }

/-- A receiver that can open its destination and receives `rcvs`. -/
def world_recv (rcvs : List Rd) : World :=
  { file := none, read_err := none, dest_ok := true, chan_ok := true, snds := [], polls := [],
    rcvs := rcvs, rmid_ok := true, stale := [], msqstat0 := ⟨0, 0⟩ }

/-- A sender of an empty file. -/
def world_send_empty : World :=
  { world_send with file := some [] }

/-- A client whose destination file cannot be opened, while its queue is
there and is removed at the first request; the receive on the removed queue fails. -/
def world_no_dest : World :=
  { file := none, read_err := none, dest_ok := false, chan_ok := true, snds := [], polls := [],
    rcvs := [Rd.err], rmid_ok := true, stale := [], msqstat0 := ⟨0, 0⟩ }

/-- A chunk send, `msgsnd` or `write` of `read_len` bytes of the file. -/
def is_chunk_send : Ev → Bool
  | Ev.snd _ _ _ => true
  | _ => false

/-- A trace in which every chunk send comes before every other call: no poll
precedes a chunk send. -/
def sends_first (evs : List Ev) : Bool :=
  (evs.dropWhile is_chunk_send).all (fun e => !is_chunk_send e)

/-- The capacity test of the FIFO procedures on the poll before a write:
`get_remain_fifo_size` is at least the length of the chunk. -/
def room_pipe (a : Option Stat) (chunk : List Nat) : Bool :=
  decide ((chunk.length : Int) ≤ get_remain_fifo_size a)

/-- The capacity test of `send_download` of `server_mp.c` on the poll before a
send, when that poll answered: the free bytes exceed `MSG_BUFFER_SZ`. -/
def room_mp (a : Option Stat) (_chunk : List Nat) : Bool :=
  match a with
  | some st => decide (MSG_BUFFER_SZ < free_bytes st)
  | none => true

/-- A trace in which every chunk send comes right after a poll that passes
the test `room` for the chunk; `prev` is the call before the trace. -/
def polled_sends (room : Option Stat → List Nat → Bool) : Option Ev → List Ev → Bool
  | _, [] => true
  | prev, Ev.snd m d r :: evs =>
    (match prev with
      | some (Ev.poll a) => room a d
      | _ => false) && polled_sends room (some (Ev.snd m d r)) evs
  | _, Ev.poll a :: evs => polled_sends room (some (Ev.poll a)) evs
  | _, Ev.hdr m s r :: evs => polled_sends room (some (Ev.hdr m s r)) evs
  | _, Ev.rcv r :: evs => polled_sends room (some (Ev.rcv r)) evs
  | _, Ev.put d :: evs => polled_sends room (some (Ev.put d)) evs
  | _, Ev.rmid :: evs => polled_sends room (some Ev.rmid) evs
  | _, Ev.close_chan :: evs => polled_sends room (some Ev.close_chan) evs
  | _, Ev.unlink_dest :: evs => polled_sends room (some Ev.unlink_dest) evs

/-- A trace whose last call on the channel, the close of the descriptor
apart, is a poll that reads 0 pending bytes. -/
def drain_confirmed (evs : List Ev) : Bool :=
  match (evs.filter (fun e => e != Ev.close_chan)).getLast? with
  | some (Ev.poll a) => get_used_fifo_size a == 0
  | _ => false

/-- The file `upload` of a client opens for the index `idx`:
`open(upload_path[idx], O_RDONLY)`, the path as the user gave it. -/
def upload_file (fs : List Char → Option (List Nat)) (upload_path : List (List Char))
    (idx : Nat) : Option (List Nat) :=
  fs (upload_path.getD idx [])

/-- A directory tree with a 12-byte file `dir/a.txt` and a 3-byte file `a.txt`. -/
def fs_two_files (path : List Char) : Option (List Nat) :=
  if path = "dir/a.txt".toList then some (List.replicate 12 7)
  else if path = "a.txt".toList then some [1, 2, 3]
  else none

/-- A directory tree with a 12-byte file `dir/a.txt` and nothing else. -/
def fs_one_file (path : List Char) : Option (List Nat) :=
  if path = "dir/a.txt".toList then some (List.replicate 12 7) else none

/-! ### Auxiliary definitions of the proofs -/

/-- A character of a record before its final newline: neither a newline nor NUL. -/
def plain (c : Char) : Prop :=
  c ≠ '\n' ∧ c.toNat ≠ 0

/-- The text of a record before its final newline. -/
def record_body (e : Entry) : List Char :=
  sprintf_d (if e.is_upload then 1 else 0) ++ ' ' :: sprintf_d e.filesize ++ ' ' ::
    e.filename ++ ' ' :: sprintf_locator e.locator

/-- The payloads of the reads that delivered data. -/
def payloads : List Rd → List (List Nat)
  | [] => []
  | Rd.data b :: rds => b :: payloads rds
  | Rd.err :: rds => payloads rds

/-- The values a client worker can store in `result_flag`: 1 for success and
the failure codes -1 to -5. -/
def is_result (code : Int) : Prop :=
  code = 1 ∨ code = -1 ∨ code = -2 ∨ code = -3 ∨ code = -4 ∨ code = -5

/-- The value of a signed run of digits: a left inverse of `sprintf_d`. -/
def sign_value : List Char → Int
  | [] => 0
  | c :: t => if c = '-' then -(digits_value t : Int) else (digits_value (c :: t) : Int)

/-- The candidate keys of `get_msg_queue_io` from `lo` on, `n` of them, in order. -/
def candidates (lo n : Nat) : List Int :=
  (List.range' lo n).map (fun (j : Nat) => IO_MP_KEY_BASE + (j : Int))

/-- A batch in which the keys 60052 to 60060 are in use. -/
def used_but_first : List Int := candidates 1 9

/-- A kernel that numbers its queues from 0: the queue of the key
`IO_MP_KEY_BASE + j` gets the identifier `j`. -/
def qid_from_zero (key : Int) : Nat := (key - IO_MP_KEY_BASE).toNat

/-- The tags `first`, `first + 1`, ..., `n` of them. -/
def tags_from (first : Int) (n : Nat) : List Int :=
  (List.range n).map (fun (k : Nat) => first + (k : Int))

/-- Polls that all show a drained channel with room for a full chunk: no
pending byte and a capacity of at least `MSG_BUFFER_SZ`. -/
def roomy (polls : List (Option Stat)) : Prop :=
  ∀ a ∈ polls, ∃ st, a = some st ∧ st.cbytes = 0 ∧ MSG_BUFFER_SZ ≤ st.qbytes

/-- Worlds in which the call of the worker of index `idx` is sure to return.
For an upload: the file cannot be opened, or every send is answered and the
polls, more than there are chunks, are `roomy`.  For a download: the last
receive that is answered is an error. -/
def answers_suffice (upload_cnt idx : Nat) (w : World) : Prop :=
  if idx < upload_cnt then
    w.file = none ∨
    ∃ content, w.file = some content ∧ (file_chunks content).length ≤ w.snds.length ∧
      (file_chunks content).length < w.polls.length ∧ roomy w.polls
  else w.rcvs.getLast? = some Rd.err

/-- A client that downloads an empty file: the header of size 0 arrives and
no message follows. -/
def world_recv_empty : World :=
  world_recv [Rd.data [0, 0, 0, 0]]

/-- A sender whose peer does not read: every poll shows one pending byte. -/
def world_stalled : World :=
  { world_send with polls := [some ⟨16384, 1⟩, some ⟨16384, 1⟩, some ⟨16384, 1⟩] }

/-- A client that downloads the one-byte file `[7]`. -/
def world_recv_byte : World :=
  world_recv [Rd.data [1, 0, 0, 0], Rd.data [7]]

/-- A sender of the one-byte file whose peer has drained the channel at every poll. -/
def world_drained : World :=
  { world_send with polls := [some ⟨16384, 0⟩, some ⟨16384, 0⟩, some ⟨16384, 0⟩] }

/-- The candidate keys of `get_msg_queue_io` that have no queue when the keys
of `used` have one, in the order the function tries them. -/
def free_keys (used : List Int) : List Int :=
  (candidates 0 10).filter (fun k => decide (k ∉ used))

/-- A system on which `mkfifo` succeeds on the first `n` paths of the process
`pid` and on no other path. -/
def mkfifo_first (pid : Int) (n : Nat) (path : List Char) : Bool :=
  decide (path ∈ fifo_paths pid n)

/-- A worker whose channel could not be made: `msgq_ids[idx]` is negative, or
the FIFO cannot be opened. -/
def world_no_chan : World :=
  { world_send with chan_ok := false, rcvs := [Rd.err] }

/-- A sender whose first send of a chunk fails. -/
def world_send_fails : World :=
  { world_send with snds := [false] }

/-- A sender whose poll of the channel fails. -/
def world_poll_fails : World :=
  { world_send with polls := [none] }

/-! ## Part 4: theorems -/

/-! ### Lemmas on the decimal conversions -/

theorem takeWhile_run {α : Type} (p : α → Bool) (l : List α) (c : α) (rest : List α)
    (hl : ∀ a ∈ l, p a = true) (hc : p c = false) :
    (l ++ c :: rest).takeWhile p = l := by
  rw [List.takeWhile_append_of_pos hl, List.takeWhile_cons_of_neg (by simp [hc])]
  simp

theorem digit_char_toNat (k : Nat) (h : k < 10) : (Char.ofNat (48 + k)).toNat = 48 + k := by
  interval_cases k <;> rfl

theorem digits_rev_isdigit : ∀ (fuel n : Nat), ∀ c ∈ digits_rev fuel n, isdigit c = true := by
  intro fuel
  induction fuel with
  | zero => intro n c hc; simp [digits_rev] at hc
  | succ f ih =>
    intro n c hc
    unfold digits_rev at hc
    split at hc
    · rename_i h
      simp only [List.mem_singleton] at hc
      subst hc
      simp [isdigit, digit_char_toNat n h]
      omega
    · simp only [List.mem_cons] at hc
      rcases hc with hc | hc
      · subst hc
        have h10 : n % 10 < 10 := Nat.mod_lt _ (by decide)
        simp [isdigit, digit_char_toNat (n % 10) h10]
        omega
      · exact ih _ c hc

theorem digits_rev_ne_nil (fuel n : Nat) : digits_rev (fuel + 1) n ≠ [] := by
  unfold digits_rev
  split <;> simp

theorem digits_rev_value : ∀ (fuel n : Nat), n < fuel →
    (digits_rev fuel n).foldr (fun c acc => acc * 10 + (c.toNat - 48)) 0 = n := by
  intro fuel
  induction fuel with
  | zero => intro n h; omega
  | succ f ih =>
    intro n h
    unfold digits_rev
    split
    · rename_i h10
      simp [digit_char_toNat n h10]
    · rename_i h10
      have hm : n % 10 < 10 := Nat.mod_lt _ (by decide)
      have hlt : n / 10 < f := by omega
      simp only [List.foldr_cons, ih (n / 10) hlt, digit_char_toNat (n % 10) hm]
      omega

theorem print_nat_isdigit (n : Nat) : ∀ c ∈ print_nat n, isdigit c = true := by
  intro c hc
  unfold print_nat at hc
  exact digits_rev_isdigit (n + 1) n c (List.mem_reverse.mp hc)

theorem print_nat_ne_nil (n : Nat) : print_nat n ≠ [] := by
  unfold print_nat
  simpa using digits_rev_ne_nil n n

theorem print_nat_value (n : Nat) : digits_value (print_nat n) = n := by
  unfold digits_value print_nat
  rw [List.foldl_reverse]
  exact digits_rev_value (n + 1) n (Nat.lt_succ_self n)

theorem wrap32_of_int32 (v : Int) (h : is_int32 v) : wrap32 v = v := by
  unfold is_int32 at h
  unfold wrap32
  omega

/-- Characters that are decimal digits are neither white space nor NUL nor a sign. -/
theorem isdigit_facts (c : Char) (h : isdigit c = true) :
    isspace c = false ∧ c.toNat ≠ 0 ∧ c ≠ '-' ∧ c ≠ '+' ∧ c ≠ '\n' := by
  simp only [isdigit, Bool.and_eq_true, decide_eq_true_eq] at h
  refine ⟨?_, ?_, ?_, ?_, ?_⟩
  · simp [isspace]; omega
  · omega
  · rintro rfl; revert h; decide
  · rintro rfl; revert h; decide
  · rintro rfl; revert h; decide

theorem isspace_not_digit (c : Char) (h : isspace c = true) : isdigit c = false := by
  cases hd : isdigit c
  · rfl
  · have := (isdigit_facts c hd).1
    rw [this] at h
    exact absurd h (by simp)

theorem isspace_newline : isspace '\n' = true := by decide

theorem dropWhile_isspace_cons (c : Char) (l : List Char) (h : isspace c = true) :
    (c :: l).dropWhile isspace = l.dropWhile isspace := by
  rw [List.dropWhile_cons_of_pos h]

theorem plain_of_digit (c : Char) (h : isdigit c = true) : plain c :=
  ⟨(isdigit_facts c h).2.2.2.2, (isdigit_facts c h).2.1⟩

theorem plain_of_token (t : List Char) (ht : is_token t) : ∀ c ∈ t, plain c := by
  intro c hc
  have h := ht.2 c hc
  refine ⟨?_, h.2⟩
  rintro rfl
  rw [isspace_newline] at h
  exact absurd h.1 (by simp)

theorem plain_sprintf_d (v : Int) : ∀ c ∈ sprintf_d v, plain c := by
  intro c hc
  unfold sprintf_d at hc
  split at hc
  · simp only [List.mem_cons] at hc
    rcases hc with rfl | hc
    · exact ⟨by decide, by decide⟩
    · exact plain_of_digit c (print_nat_isdigit _ c hc)
  · exact plain_of_digit c (print_nat_isdigit _ c hc)

theorem sprintf_record_eq (e : Entry) : sprintf_record e = record_body e ++ ['\n'] := by
  simp [sprintf_record, record_body]

theorem plain_record_body (e : Entry) (he : entry_ok e) : ∀ c ∈ record_body e, plain c := by
  obtain ⟨_, hname, hloc⟩ := he
  have hspace : plain ' ' := ⟨by decide, by decide⟩
  have hl : ∀ c ∈ sprintf_locator e.locator, plain c := by
    cases hk : e.locator with
    | int k => simpa [sprintf_locator] using plain_sprintf_d k
    | str p =>
      rw [hk] at hloc
      simpa [sprintf_locator] using plain_of_token p hloc
  intro c hc
  simp only [record_body, List.mem_append, List.mem_cons, or_assoc] at hc
  rcases hc with hc | rfl | hc | rfl | hc | rfl | hc
  · exact plain_sprintf_d _ c hc
  · exact hspace
  · exact plain_sprintf_d _ c hc
  · exact hspace
  · exact plain_of_token _ hname c hc
  · exact hspace
  · exact hl c hc

theorem build_request_no_nul (es : List Entry) (hok : ∀ e ∈ es, entry_ok e) :
    ∀ c ∈ build_request es, c.toNat ≠ 0 := by
  induction es with
  | nil => intro c hc; simp [build_request] at hc
  | cons e es ih =>
    intro c hc
    simp only [build_request, sprintf_record_eq, List.mem_append, List.mem_singleton, or_assoc] at hc
    rcases hc with hc | rfl | hc
    · exact (plain_record_body e (hok e (by simp)) c hc).2
    · decide
    · exact ih (fun x hx => hok x (by simp [hx])) c hc

theorem cstr_build_request (es : List Entry) (hok : ∀ e ∈ es, entry_ok e) :
    cstr (build_request es) = build_request es := by
  unfold cstr
  rw [List.takeWhile_eq_self_iff]
  intro c hc
  simpa using build_request_no_nul es hok c hc

theorem cstr_length_le (b : List Char) : (cstr b).length ≤ b.length := by
  unfold cstr
  exact (List.takeWhile_sublist _).length_le

theorem reads_of_spec : ∀ (fuel : Nat) (content : List Nat), content.length ≤ fuel →
    (reads_of fuel content).flatten = content ∧
    ∀ c ∈ reads_of fuel content, 1 ≤ c.length ∧ c.length ≤ MSG_BUFFER_SZ := by
  intro fuel
  induction fuel with
  | zero =>
    intro content h
    have : content = [] := List.length_eq_zero.mp (Nat.le_zero.mp h)
    subst this
    simp [reads_of]
  | succ f ih =>
    intro content h
    unfold reads_of
    by_cases hc : content = []
    · simp [hc]
    · have hpos : 0 < content.length := List.length_pos.mpr hc
      have hdrop : (content.drop MSG_BUFFER_SZ).length ≤ f := by
        simp only [List.length_drop, MSG_BUFFER_SZ]; omega
      obtain ⟨h1, h2⟩ := ih (content.drop MSG_BUFFER_SZ) hdrop
      rw [if_neg hc]
      refine ⟨?_, ?_⟩
      · rw [List.flatten_cons, h1, List.take_append_drop]
      · intro c hmem
        simp only [List.mem_cons] at hmem
        rcases hmem with rfl | hmem
        · simp only [List.length_take, MSG_BUFFER_SZ]; omega
        · exact h2 c hmem

theorem file_chunks_flatten (content : List Nat) : (file_chunks content).flatten = content :=
  (reads_of_spec content.length content (Nat.le_refl _)).1

theorem file_chunks_bounds (content : List Nat) :
    ∀ c ∈ file_chunks content, 1 ≤ c.length ∧ c.length ≤ MSG_BUFFER_SZ :=
  (reads_of_spec content.length content (Nat.le_refl _)).2

theorem file_chunks_ne_nil (content : List Nat) (h : content ≠ []) : file_chunks content ≠ [] := by
  intro hn
  have := file_chunks_flatten content
  rw [hn] at this
  exact h (by simpa using this.symm)

theorem written_append (a b : List Ev) : written (a ++ b) = written a ++ written b := by
  induction a with
  | nil => rfl
  | cons e a ih => cases e <;> simp [written, ih]

/-- The receive loop on chunks whose running total reaches `filesize` exactly
at the end of `pre`: it stops there, having written the chunks of `pre` and
nothing of what follows them. -/
theorem receive_loop_exact (filesize : Int) (post : List Rd) :
    ∀ (pre : List (List Nat)) (accum : Int), pre ≠ [] →
      (∀ c ∈ pre, 1 ≤ c.length ∧ c.length ≤ MSG_BUFFER_SZ) → 0 ≤ accum →
      accum + (pre.flatten.length : Int) = filesize → filesize ≤ 2147483647 →
      (receive_loop filesize accum (pre.map Rd.data ++ post)).1 = LoopEnd.done ∧
      written (receive_loop filesize accum (pre.map Rd.data ++ post)).2 = pre.flatten := by
  intro pre
  induction pre with
  | nil => intro accum h; exact absurd rfl h
  | cons c cs ih =>
    intro accum _ hb hacc hsum hmax
    obtain ⟨hc1, hc2⟩ := hb c (by simp)
    have htake : c.take MSG_BUFFER_SZ = c := List.take_of_length_le hc2
    have hlen0 : ¬ c.length = 0 := by omega
    simp only [List.flatten_cons, List.length_append, Nat.cast_add] at hsum
    have hw : wrap32 (accum + (c.length : Int)) = accum + (c.length : Int) := by
      apply wrap32_of_int32
      unfold is_int32
      omega
    simp only [List.map_cons, List.cons_append, receive_loop, htake, hlen0, if_false, hw]
    by_cases hcs : cs = []
    · subst hcs
      simp only [List.flatten_nil, List.length_nil, Nat.cast_zero, add_zero] at hsum
      simp [hsum, written]
    · have hcsb : ∀ x ∈ cs, 1 ≤ x.length ∧ x.length ≤ MSG_BUFFER_SZ :=
        fun x hx => hb x (by simp [hx])
      have hpos : 0 < cs.flatten.length := by
        obtain ⟨d, ds, rfl⟩ := List.exists_cons_of_ne_nil hcs
        have := (hcsb d (by simp)).1
        simp only [List.flatten_cons, List.length_append]
        omega
      have hne : ¬ accum + (c.length : Int) = filesize := by omega
      obtain ⟨h1, h2⟩ := ih (accum + c.length) hcs hcsb (by omega) (by omega) hmax
      simp only [hne, if_false, written, List.flatten_cons]
      exact ⟨h1, by rw [← h2]; rfl⟩

theorem sent_append (a b : List Ev) : sent (a ++ b) = sent a ++ sent b := by
  induction a with
  | nil => rfl
  | cons e a ih =>
    cases e with
    | snd m d r => cases r <;> simp [sent, ih]
    | hdr m s r => cases r <;> simp [sent, ih]
    | _ => simp [sent, ih]

/-! ### What the send procedures put on the channel -/

theorem after_fst (evs : List Ev) (r : Outcome × List Ev) : (after evs r).1 = r.1 := rfl

theorem after_snd (evs : List Ev) (r : Outcome × List Ev) : (after evs r).2 = evs ++ r.2 := rfl

theorem sent_drain_upload_mp (polls : List (Option Stat)) :
    sent (drain_upload_mp polls).2 = [] := by
  induction polls with
  | nil => rfl
  | cons a polls ih =>
    cases a with
    | none => rfl
    | some st =>
      unfold drain_upload_mp
      split
      · rfl
      · rw [after_snd, sent_append, ih]; rfl

theorem sent_upload_loop_mp : ∀ (chunks : List (List Nat)) (mtype : Int) (snds : List Bool)
    (polls : List (Option Stat)), (upload_loop_mp chunks mtype snds polls).1 = Outcome.ret 1 →
    sent (upload_loop_mp chunks mtype snds polls).2 = chunks := by
  intro chunks
  induction chunks with
  | nil => intro mtype snds polls _; exact sent_drain_upload_mp polls
  | cons c cs ih =>
    intro mtype snds polls h
    match snds with
    | [] => simp [upload_loop_mp] at h
    | false :: _ => simp [upload_loop_mp] at h
    | true :: snds =>
      simp only [upload_loop_mp, after_fst, after_snd] at h ⊢
      rw [sent_append, ih _ _ _ h]
      rfl

theorem sent_wait_remain_pipe (n : Nat) (polls : List (Option Stat)) :
    sent (wait_remain_pipe n polls).2 = [] := by
  induction polls with
  | nil => rfl
  | cons a polls ih =>
    unfold wait_remain_pipe
    split
    · simpa [sent] using ih
    · rfl

theorem sent_drain_upload_pipe (polls : List (Option Stat)) :
    sent (drain_upload_pipe polls).2 = [] := by
  induction polls with
  | nil => rfl
  | cons a polls ih =>
    unfold drain_upload_pipe
    split
    · rw [after_snd, sent_append, ih]; rfl
    · rfl

theorem payloads_map_data (chunks : List (List Nat)) : payloads (chunks.map Rd.data) = chunks := by
  induction chunks with
  | nil => rfl
  | cons c cs ih => simp [payloads, ih]

theorem sent_upload_loop_pipe : ∀ (reads : List Rd) (snds : List Bool)
    (polls : List (Option Stat)), (upload_loop_pipe reads snds polls).1 = Outcome.ret 1 →
    sent (upload_loop_pipe reads snds polls).2 = payloads reads ∧ Rd.err ∉ reads := by
  intro reads
  induction reads with
  | nil => intro snds polls _; exact ⟨sent_drain_upload_pipe polls, by simp⟩
  | cons r rs ih =>
    intro snds polls h
    cases r with
    | err => simp [upload_loop_pipe] at h
    | data c =>
      unfold upload_loop_pipe at h ⊢
      have hw := sent_wait_remain_pipe c.length polls
      rcases hwr : wait_remain_pipe c.length polls with ⟨_ | polls2, evs⟩
      · rw [hwr] at h; simp at h
      · rw [hwr] at h hw
        simp only at h hw ⊢
        match snds with
        | [] => simp at h
        | false :: _ => simp at h
        | true :: snds =>
          simp only [after_fst, after_snd] at h ⊢
          obtain ⟨h1, h2⟩ := ih _ _ h
          refine ⟨?_, by simp [h2]⟩
          rw [sent_append, sent_append, hw, h1]
          rfl

theorem sent_wait_capacity_mp : ∀ (polls : List (Option Stat)) (msqstat : Stat),
    sent (wait_capacity_mp msqstat polls).2 = [] := by
  intro polls
  induction polls with
  | nil => intro _; rfl
  | cons a polls ih =>
    intro msqstat
    unfold wait_capacity_mp
    split
    · rfl
    · simpa [sent] using ih _

theorem sent_drain_download_mp (polls : List (Option Stat)) :
    sent (drain_download_mp polls).2 = [] := by
  induction polls with
  | nil => rfl
  | cons a polls ih =>
    cases a with
    | none => rfl
    | some st =>
      unfold drain_download_mp
      split
      · rfl
      · rw [after_snd, sent_append, ih]; rfl

theorem sent_download_loop_mp : ∀ (chunks : List (List Nat)) (mtype : Int) (msqstat : Stat)
    (snds : List Bool) (polls : List (Option Stat)),
    (download_loop_mp chunks mtype msqstat snds polls).1 = Outcome.ret 0 →
    sent (download_loop_mp chunks mtype msqstat snds polls).2 = chunks := by
  intro chunks
  induction chunks with
  | nil => intro _ _ _ polls _; exact sent_drain_download_mp polls
  | cons c cs ih =>
    intro mtype msqstat snds polls h
    unfold download_loop_mp at h ⊢
    have hw := sent_wait_capacity_mp polls msqstat
    rcases hwr : wait_capacity_mp msqstat polls with ⟨_ | ⟨st2, polls2⟩, evs⟩
    · rw [hwr] at h; simp at h
    · rw [hwr] at h hw
      simp only at h hw ⊢
      match snds with
      | [] => simp at h
      | false :: _ => simp at h
      | true :: snds =>
        simp only [after_fst, after_snd] at h ⊢
        rw [sent_append, sent_append, hw, ih _ _ _ _ h]
        rfl

theorem sent_download_loop_pipe : ∀ (chunks : List (List Nat)) (snds : List Bool)
    (polls : List (Option Stat)),
    (download_loop_pipe chunks snds polls).1 = Outcome.ret 0 →
    sent (download_loop_pipe chunks snds polls).2 = chunks := by
  intro chunks
  induction chunks with
  | nil => intro _ _ _; rfl
  | cons c cs ih =>
    intro snds polls h
    unfold download_loop_pipe at h ⊢
    have hw := sent_wait_remain_pipe c.length polls
    rcases hwr : wait_remain_pipe c.length polls with ⟨_ | polls2, evs⟩
    · rw [hwr] at h; simp at h
    · rw [hwr] at h hw
      simp only at h hw ⊢
      match snds with
      | [] => simp at h
      | false :: _ => simp at h
      | true :: snds =>
        simp only [after_fst, after_snd] at h ⊢
        rw [sent_append, sent_append, hw, ih _ _ h]
        rfl

theorem sent_upload_mp (w : World) (content : List Nat) (hfile : w.file = some content)
    (h : (upload_mp w).1 = Outcome.ret 1) : sent (upload_mp w).2 = file_chunks content := by
  unfold upload_mp at h ⊢
  rw [hfile] at h ⊢
  simp only at h ⊢
  split at h
  · simp at h
  · rename_i hc
    rw [if_neg hc]
    exact sent_upload_loop_mp _ _ _ _ h

theorem reads_pipe_err (content : List Nat) (k : Nat) : Rd.err ∈ reads_pipe content (some k) := by
  simp [reads_pipe]

theorem sent_upload_pipe (w : World) (content : List Nat) (hfile : w.file = some content)
    (h : (upload_pipe w).1 = Outcome.ret 1) : sent (upload_pipe w).2 = file_chunks content := by
  unfold upload_pipe at h ⊢
  rw [hfile] at h ⊢
  simp only at h ⊢
  split at h
  · simp at h
  · rename_i hc
    rw [if_neg hc]
    obtain ⟨h1, h2⟩ := sent_upload_loop_pipe _ _ _ h
    cases hr : w.read_err with
    | none => rw [hr] at h1; rw [h1]; exact payloads_map_data _
    | some k => rw [hr] at h2; exact absurd (reads_pipe_err content k) h2

theorem sent_send_download_mp (w : World) (content : List Nat) (hfile : w.file = some content)
    (h : (send_download_mp w).1 = Outcome.ret 0) :
    sent (send_download_mp w).2 = le32 (wrap32 content.length) :: file_chunks content := by
  unfold send_download_mp at h ⊢
  rw [hfile] at h ⊢
  simp only at h ⊢
  split at h
  · simp at h
  · rename_i hc
    rw [if_neg hc]
    match hs : w.snds with
    | [] => rw [hs] at h; simp at h
    | false :: _ => rw [hs] at h; simp at h
    | true :: snds =>
      rw [hs] at h
      simp only [after_fst, after_snd] at h ⊢
      rw [sent_append, sent_download_loop_mp _ _ _ _ _ h]
      rfl

theorem sent_send_download_pipe (w : World) (content : List Nat) (hfile : w.file = some content)
    (h : (send_download_pipe w).1 = Outcome.ret 0) :
    sent (send_download_pipe w).2 = le32 (wrap32 content.length) :: file_chunks content := by
  unfold send_download_pipe at h ⊢
  rw [hfile] at h ⊢
  simp only at h ⊢
  split at h
  · simp at h
  · rename_i hc
    rw [if_neg hc]
    match hs : w.snds with
    | [] => rw [hs] at h; simp at h
    | false :: _ => rw [hs] at h; simp at h
    | true :: snds =>
      rw [hs] at h
      simp only [after_fst, after_snd] at h ⊢
      rw [sent_append, sent_download_loop_pipe _ _ _ h]
      rfl

/-- The header is read back as the size that was sent. -/
theorem header_size_le32 (v : Int) (hv : is_int32 v) (stale : List Nat) :
    header_size (le32 v) stale = v := by
  unfold is_int32 at hv
  simp only [header_size, le32, List.take, List.length_cons, List.length_nil, List.cons_append,
    List.nil_append, of_le32, List.getD_cons_zero, List.getD_cons_succ, wrap32]
  have hu : (((v % 4294967296).toNat : Nat) : Int) = v % 4294967296 :=
    Int.toNat_of_nonneg (Int.emod_nonneg _ (by decide))
  have hlt : (v % 4294967296).toNat < 4294967296 := by omega
  generalize (v % 4294967296).toNat = u at hu hlt ⊢
  have hsum : u % 256 % 256 + 256 * (u / 256 % 256 % 256) + 65536 * (u / 65536 % 256 % 256) +
      16777216 * (u / 16777216 % 256 % 256) = u := by omega
  rw [hsum]
  omega

/-- The receive loop fed the chunks of a non-empty file whose size was declared. -/
theorem receive_loop_file (content : List Nat) (hne : content ≠ [])
    (hlen : (content.length : Int) ≤ 2147483647) :
    (receive_loop content.length 0 ((file_chunks content).map Rd.data)).1 = LoopEnd.done ∧
    written (receive_loop content.length 0 ((file_chunks content).map Rd.data)).2 = content := by
  have h := receive_loop_exact content.length [] (file_chunks content) 0
    (file_chunks_ne_nil content hne) (file_chunks_bounds content) (le_refl _)
    (by rw [file_chunks_flatten]; simp) hlen
  simpa [file_chunks_flatten] using h

theorem dest_after_nil (evs : List Ev) : dest_after [] evs = written evs := by
  simp [dest_after]

/-! ### Claims on the transfer engine -/

/-- C3: file content round trip for non-empty files.  For every non-empty
content whose length fits a C `int`, a receive procedure that can open its
destination (empty before) and is fed, in order, the messages the matching send
procedure put on the channel in a run that returned success, with the length of
the content as declared size, returns success and leaves exactly the content in
the destination; in the download direction the first message is the 4-byte
header. -/
theorem file_round_trip (content : List Nat) (ws wr : World) (hne : content ≠ [])
    (hlen : (content.length : Int) ≤ 2147483647) (hfile : ws.file = some content)
    (hdest : wr.dest_ok = true) :
    ((upload_mp ws).1 = Outcome.ret 1 → wr.rcvs = (sent (upload_mp ws).2).map Rd.data →
      (receive_upload_mp content.length wr).1 = Outcome.ret 0 ∧
      dest_after [] (receive_upload_mp content.length wr).2 = content) ∧
    ((upload_pipe ws).1 = Outcome.ret 1 → wr.rcvs = (sent (upload_pipe ws).2).map Rd.data →
      (receive_upload_pipe content.length wr).1 = Outcome.ret 0 ∧
      dest_after [] (receive_upload_pipe content.length wr).2 = content) ∧
    ((send_download_mp ws).1 = Outcome.ret 0 →
      wr.rcvs = (sent (send_download_mp ws).2).map Rd.data → wr.chan_ok = true →
      (download_mp wr).1 = Outcome.ret 1 ∧ dest_after [] (download_mp wr).2 = content) ∧
    ((send_download_pipe ws).1 = Outcome.ret 0 →
      wr.rcvs = (sent (send_download_pipe ws).2).map Rd.data → wr.chan_ok = true →
      wr.rmid_ok = true →
      (download_pipe wr).1 = Outcome.ret 1 ∧ dest_after [] (download_pipe wr).2 = content) := by
  obtain ⟨hl1, hl2⟩ := receive_loop_file content hne hlen
  have hsz : is_int32 (content.length : Int) := by
    unfold is_int32; omega
  have hhdr : ∀ stale, header_size (le32 (wrap32 content.length)) stale = content.length := by
    intro stale
    rw [wrap32_of_int32 _ hsz, header_size_le32 _ hsz]
  refine ⟨?_, ?_, ?_, ?_⟩
  · intro hs hr
    rw [sent_upload_mp ws content hfile hs] at hr
    rcases hloop : receive_loop content.length 0 ((file_chunks content).map Rd.data) with ⟨e, evs⟩
    rw [hloop] at hl1 hl2
    simp only at hl1 hl2
    subst hl1
    simp [receive_upload_mp, hdest, hr, hloop, dest_after_nil, written_append, hl2, written]
  · intro hs hr
    rw [sent_upload_pipe ws content hfile hs] at hr
    rcases hloop : receive_loop content.length 0 ((file_chunks content).map Rd.data) with ⟨e, evs⟩
    rw [hloop] at hl1 hl2
    simp only at hl1 hl2
    subst hl1
    simp [receive_upload_pipe, hdest, hr, hloop, dest_after_nil, written_append, hl2, written]
  · intro hs hr hchan
    rw [sent_send_download_mp ws content hfile hs] at hr
    rcases hloop : receive_loop content.length 0 ((file_chunks content).map Rd.data) with ⟨e, evs⟩
    rw [hloop] at hl1 hl2
    simp only at hl1 hl2
    subst hl1
    simp [download_mp, hdest, hchan, hr, hhdr, hloop, dest_after_nil, written_append, hl2,
      written, after]
  · intro hs hr hchan hrm
    rw [sent_send_download_pipe ws content hfile hs] at hr
    rcases hloop : receive_loop content.length 0 ((file_chunks content).map Rd.data) with ⟨e, evs⟩
    rw [hloop] at hl1 hl2
    simp only at hl1 hl2
    subst hl1
    simp [download_pipe, hdest, hchan, hrm, hr, hhdr, hloop, dest_after_nil, written_append, hl2,
      written, after]

/-- Witness of C3: the one-byte file `[7]` uploaded over a message queue. -/
theorem file_round_trip_witness :
    ([7] : List Nat) ≠ [] ∧ world_send.file = some [7] ∧
    (upload_mp world_send).1 = Outcome.ret 1 ∧
    (receive_upload_mp (([7] : List Nat).length : Int)
      (world_recv ((sent (upload_mp world_send).2).map Rd.data))).1 = Outcome.ret 0 ∧
    dest_after [] (receive_upload_mp (([7] : List Nat).length : Int)
      (world_recv ((sent (upload_mp world_send).2).map Rd.data))).2 = [7] :=
  have h := (file_round_trip [7] world_send
    (world_recv ((sent (upload_mp world_send).2).map Rd.data)) (by decide) (by decide) rfl rfl).1
    (by decide) rfl
  ⟨by decide, rfl, by decide, h.1, h.2⟩

theorem sends_first_drain_upload_mp (polls : List (Option Stat)) :
    ∀ e ∈ (drain_upload_mp polls).2, is_chunk_send e = false := by
  induction polls with
  | nil => intro e he; simp [drain_upload_mp] at he
  | cons a polls ih =>
    intro e he
    cases a with
    | none =>
      simp only [drain_upload_mp, List.mem_cons, List.mem_singleton, List.not_mem_nil,
        or_false] at he
      rcases he with rfl | rfl <;> rfl
    | some st =>
      unfold drain_upload_mp at he
      split at he
      · simp only [List.mem_singleton] at he
        subst he; rfl
      · simp only [after_snd, List.singleton_append, List.mem_cons] at he
        rcases he with rfl | he
        · rfl
        · exact ih e he

theorem sends_first_upload_loop_mp : ∀ (chunks : List (List Nat)) (mtype : Int)
    (snds : List Bool) (polls : List (Option Stat)),
    sends_first (upload_loop_mp chunks mtype snds polls).2 = true := by
  intro chunks
  induction chunks with
  | nil =>
    intro mtype snds polls
    have h := sends_first_drain_upload_mp polls
    simp only [upload_loop_mp, sends_first, List.all_eq_true, Bool.not_eq_true']
    intro e he
    exact h e ((List.dropWhile_sublist _).subset he)
  | cons c cs ih =>
    intro mtype snds polls
    match snds with
    | [] => rfl
    | false :: _ => rfl
    | true :: snds =>
      have := ih (mtype + 1) snds polls
      simpa [upload_loop_mp, after, sends_first, is_chunk_send] using this

/-- C4, the code at the failing input: `upload` of `client_mp.c` issues its
`msgsnd` as its first call on the queue, so the send does not come after a poll,
whatever the capacity test; the only polls of the run are those of the drain
loop, after the last send.  In every world the chunk sends of this function
come before any poll. -/
theorem upload_mp_sends_unpolled :
    upload_mp world_send =
      (Outcome.ret 1, [Ev.snd 1 [7] Res.ok, Ev.poll (some ⟨16384, 1⟩),
        Ev.poll (some ⟨16384, 0⟩)]) ∧
    (∀ room, polled_sends room none (upload_mp world_send).2 = false) ∧
    ∀ w : World, sends_first (upload_mp w).2 = true := by
  refine ⟨by decide, fun room => rfl, ?_⟩
  intro w
  unfold upload_mp
  split
  · rfl
  · split
    · rfl
    · exact sends_first_upload_loop_mp _ _ _ _

theorem drain_confirmed_of_last_send (pre : List Ev) (e : Ev)
    (he : (∃ m d r, e = Ev.snd m d r) ∨ ∃ m s r, e = Ev.hdr m s r) :
    drain_confirmed (pre ++ [e, Ev.close_chan]) = false := by
  have hc : (Ev.close_chan != Ev.close_chan) = false := by simp
  have hp : (e != Ev.close_chan) = true := by
    rcases he with ⟨m, d, r, rfl⟩ | ⟨m, s, r, rfl⟩ <;> simp
  have h2 : List.filter (fun x => x != Ev.close_chan) [e, Ev.close_chan] = [e] := by
    simp only [List.filter, hp, hc]
  unfold drain_confirmed
  rw [List.filter_append, h2, List.getLast?_append, List.getLast?_singleton]
  rcases he with ⟨m, d, r, rfl⟩ | ⟨m, s, r, rfl⟩ <;> simp

theorem last_send_download_loop_pipe : ∀ (chunks : List (List Nat)) (snds : List Bool)
    (polls : List (Option Stat)),
    (download_loop_pipe chunks snds polls).1 = Outcome.ret 0 →
    (download_loop_pipe chunks snds polls).2 = [Ev.close_chan] ∨
    ∃ (pre : List Ev) (m : Int) (d : List Nat) (r : Res),
      (download_loop_pipe chunks snds polls).2 = pre ++ [Ev.snd m d r, Ev.close_chan] := by
  intro chunks
  induction chunks with
  | nil => intro _ _ _; exact Or.inl rfl
  | cons ch cs ih =>
    intro snds polls h
    unfold download_loop_pipe at h ⊢
    rcases hwr : wait_remain_pipe ch.length polls with ⟨_ | polls2, evs⟩
    · rw [hwr] at h; simp at h
    · rw [hwr] at h
      simp only at h ⊢
      match snds with
      | [] => simp at h
      | false :: _ => simp at h
      | true :: snds =>
        simp only [after_fst, after_snd] at h ⊢
        rcases ih snds polls2 h with h1 | ⟨pre, m, d, r, h1⟩
        · exact Or.inr ⟨evs, 0, ch, Res.ok, by rw [h1, List.append_assoc]; rfl⟩
        · exact Or.inr ⟨evs ++ [Ev.snd 0 ch Res.ok] ++ pre, m, d, r, by
            rw [h1]; simp only [List.append_assoc]⟩

/-- C5, the code at the failing input: `send_download` of `server_pipe.c`
returns 0 right after its last write and the close of the FIFO, without any
poll of the pending bytes: the only poll of the run is the capacity poll before
the write.  In every world in which this function returns 0, the last call on
the FIFO before the close is a write, not a poll. -/
theorem send_download_pipe_returns_undrained :
    send_download_pipe world_send =
      (Outcome.ret 0, [Ev.hdr 0 1 Res.ok, Ev.poll (some ⟨16384, 1⟩), Ev.snd 0 [7] Res.ok,
        Ev.close_chan]) ∧
    ∀ w : World, (send_download_pipe w).1 = Outcome.ret 0 →
      drain_confirmed (send_download_pipe w).2 = false := by
  refine ⟨by decide, ?_⟩
  intro w h
  unfold send_download_pipe at h ⊢
  split at h
  · simp at h
  · split at h
    · simp at h
    · rename_i hch
      rw [if_neg hch]
      split at h
      · simp at h
      · simp at h
      · rw [after_fst] at h
        rw [after_snd]
        rcases last_send_download_loop_pipe _ _ _ h with h1 | ⟨pre, m, d, r, h1⟩
        · rw [h1]
          exact drain_confirmed_of_last_send [] _ (Or.inr ⟨_, _, _, rfl⟩)
        · rw [h1, ← List.append_assoc]
          exact drain_confirmed_of_last_send _ _ (Or.inl ⟨m, d, r, rfl⟩)

/-- C6, as stated, fails: with declared size 3 and a first chunk of 5 bytes
the receive loop writes the 5 bytes, and goes on receiving. -/
theorem declared_size_bound_counterexample :
    receive_loop 3 0 [Rd.data [1, 2, 3, 4, 5]] =
      (LoopEnd.waiting, [Ev.rcv (Rd.data [1, 2, 3, 4, 5]), Ev.put [1, 2, 3, 4, 5]]) ∧
    ¬ (((written (receive_loop 3 0 [Rd.data [1, 2, 3, 4, 5]]).2).length : Int) ≤ 3) := by
  constructor <;> decide

/-- C6, amended: when the running total of the received chunks (each of 1 to
`MSG_BUFFER_SZ` bytes) equals the declared size `s` after the chunks `pre`, the
receive loop stops there: it has written exactly the chunks of `pre`, `s` bytes
in all, and nothing of what is received after them. -/
theorem receive_stops_at_declared_size (s : Int) (pre : List (List Nat)) (post : List Rd)
    (hpre : pre ≠ []) (hb : ∀ c ∈ pre, 1 ≤ c.length ∧ c.length ≤ MSG_BUFFER_SZ)
    (hsum : (pre.flatten.length : Int) = s) (hmax : s ≤ 2147483647) :
    (receive_loop s 0 (pre.map Rd.data ++ post)).1 = LoopEnd.done ∧
    written (receive_loop s 0 (pre.map Rd.data ++ post)).2 = pre.flatten ∧
    ((written (receive_loop s 0 (pre.map Rd.data ++ post)).2).length : Int) = s := by
  obtain ⟨h1, h2⟩ := receive_loop_exact s post pre 0 hpre hb (le_refl _) (by simpa using hsum) hmax
  exact ⟨h1, h2, by rw [h2, hsum]⟩

/-- Witness of C6 amended: declared size 3, chunks of 2 and 1 bytes, then more data. -/
theorem receive_stops_at_declared_size_witness :
    (receive_loop 3 0 ([[1, 2], [3]].map Rd.data ++ [Rd.data [4, 5]])).1 = LoopEnd.done ∧
    written (receive_loop 3 0 ([[1, 2], [3]].map Rd.data ++ [Rd.data [4, 5]])).2 =
      [[1, 2], [3]].flatten ∧
    ((written (receive_loop 3 0 ([[1, 2], [3]].map Rd.data ++ [Rd.data [4, 5]])).2).length : Int)
      = 3 :=
  receive_stops_at_declared_size 3 [[1, 2], [3]] [Rd.data [4, 5]] (by decide) (by decide)
    (by decide) (by decide)

/-- C7, the code at the failing input: for an empty file the senders return
success having put no data message on the channel (the server only the header
of size 0), and the receivers, given declared size 0 and exactly these
messages, have written nothing and are still inside the receive of a further
message. -/
theorem empty_file_receiver_blocks :
    (upload_mp world_send_empty).1 = Outcome.ret 1 ∧
    sent (upload_mp world_send_empty).2 = [] ∧
    receive_upload_mp 0 (world_recv []) = (Outcome.blocked, []) ∧
    receive_upload_pipe 0 (world_recv []) = (Outcome.blocked, []) ∧
    (send_download_mp world_send_empty).1 = Outcome.ret 0 ∧
    sent (send_download_mp world_send_empty).2 = [[0, 0, 0, 0]] ∧
    download_mp (world_recv [Rd.data [0, 0, 0, 0]]) =
      (Outcome.blocked, [Ev.rcv (Rd.data [0, 0, 0, 0])]) ∧
    download_pipe (world_recv [Rd.data [0, 0, 0, 0]]) =
      (Outcome.blocked, [Ev.rcv (Rd.data [0, 0, 0, 0])]) := by
  refine ⟨?_, ?_, ?_, ?_, ?_, ?_, ?_, ?_⟩ <;> decide

/-! ### When the client procedures return -/

theorem returns_drain_upload_mp (polls : List (Option Stat)) (h : polls ≠ []) (hr : roomy polls) :
    ∃ c, (drain_upload_mp polls).1 = Outcome.ret c := by
  cases polls with
  | nil => exact absurd rfl h
  | cons a polls =>
    obtain ⟨st, rfl, hc, _⟩ := hr a (by simp)
    exact ⟨1, by simp [drain_upload_mp, hc]⟩

theorem returns_upload_loop_mp : ∀ (chunks : List (List Nat)) (mtype : Int) (snds : List Bool)
    (polls : List (Option Stat)), chunks.length ≤ snds.length → polls ≠ [] → roomy polls →
    ∃ c, (upload_loop_mp chunks mtype snds polls).1 = Outcome.ret c := by
  intro chunks
  induction chunks with
  | nil => intro _ _ polls _ hp hr; exact returns_drain_upload_mp polls hp hr
  | cons ch cs ih =>
    intro mtype snds polls hlen hp hr
    match snds with
    | [] => simp at hlen
    | false :: _ => exact ⟨-4, rfl⟩
    | true :: snds =>
      obtain ⟨c, hc⟩ := ih (mtype + 1) snds polls (by simpa using hlen) hp hr
      exact ⟨c, hc⟩

theorem returns_drain_upload_pipe (polls : List (Option Stat)) (h : polls ≠ [])
    (hr : roomy polls) : ∃ c, (drain_upload_pipe polls).1 = Outcome.ret c := by
  cases polls with
  | nil => exact absurd rfl h
  | cons a polls =>
    obtain ⟨st, rfl, hc, _⟩ := hr a (by simp)
    exact ⟨1, by simp [drain_upload_pipe, get_used_fifo_size, hc]⟩

theorem wait_remain_pipe_roomy (n : Nat) (hn : n ≤ MSG_BUFFER_SZ) (a : Option Stat)
    (polls : List (Option Stat)) (hr : roomy (a :: polls)) :
    wait_remain_pipe n (a :: polls) = (some polls, [Ev.poll a]) := by
  obtain ⟨st, rfl, hc, hq⟩ := hr a (by simp)
  unfold wait_remain_pipe
  have : ¬ get_remain_fifo_size (some st) < (n : Int) := by
    simp only [get_remain_fifo_size, hc]
    omega
  rw [if_neg this]

theorem returns_upload_loop_pipe : ∀ (reads : List Rd) (snds : List Bool)
    (polls : List (Option Stat)),
    (∀ c, Rd.data c ∈ reads → c.length ≤ MSG_BUFFER_SZ) →
    (payloads reads).length ≤ snds.length → (payloads reads).length < polls.length →
    roomy polls → ∃ c, (upload_loop_pipe reads snds polls).1 = Outcome.ret c := by
  intro reads
  induction reads with
  | nil =>
    intro _ polls _ _ hp hr
    exact returns_drain_upload_pipe polls (by intro h; rw [h] at hp; simp at hp) hr
  | cons r rs ih =>
    intro snds polls hb hs hp hr
    cases r with
    | err => exact ⟨-3, rfl⟩
    | data ch =>
      simp only [payloads, List.length_cons] at hs hp
      match polls, hp, hr with
      | [], hp, _ => simp at hp
      | a :: polls, hp, hr =>
        unfold upload_loop_pipe
        rw [wait_remain_pipe_roomy ch.length (hb ch (by simp)) a polls hr]
        match snds, hs with
        | [], hs => simp at hs
        | false :: _, _ => exact ⟨-4, rfl⟩
        | true :: snds, hs =>
          obtain ⟨c, hc⟩ := ih snds polls (fun c hc => hb c (by simp [hc]))
            (by simpa using hs) (by simpa using hp) (fun x hx => hr x (by simp [hx]))
          exact ⟨c, hc⟩

theorem reads_pipe_bounds (content : List Nat) (k : Option Nat) :
    (∀ c, Rd.data c ∈ reads_pipe content k → c.length ≤ MSG_BUFFER_SZ) ∧
    (payloads (reads_pipe content k)).length ≤ (file_chunks content).length := by
  have hpay : ∀ l : List (List Nat), payloads (l.map Rd.data ++ [Rd.err]) = l := by
    intro l
    induction l with
    | nil => rfl
    | cons c cs ih => simp [payloads, ih]
  cases k with
  | none =>
    refine ⟨?_, by simp [reads_pipe, payloads_map_data]⟩
    intro c hc
    simp only [reads_pipe, List.mem_map, Rd.data.injEq, exists_eq_right] at hc
    exact (file_chunks_bounds content c hc).2
  | some k =>
    refine ⟨?_, ?_⟩
    · intro c hc
      simp only [reads_pipe, List.mem_append, List.mem_map, Rd.data.injEq, exists_eq_right,
        List.mem_singleton, reduceCtorEq, or_false] at hc
      exact (file_chunks_bounds content c (List.take_subset _ _ hc)).2
    · simp only [reads_pipe, hpay, List.length_take]
      omega

theorem receive_loop_ends (filesize : Int) : ∀ (rcvs : List Rd) (accum : Int),
    rcvs.getLast? = some Rd.err → (receive_loop filesize accum rcvs).1 ≠ LoopEnd.waiting := by
  intro rcvs
  induction rcvs with
  | nil => intro _ h; simp at h
  | cons r rs ih =>
    intro accum h
    cases r with
    | err => simp [receive_loop]
    | data b =>
      have hrs : rs ≠ [] := by
        intro hn
        rw [hn] at h
        simp at h
      have hlast : rs.getLast? = some Rd.err := by
        obtain ⟨x, xs, rfl⟩ := List.exists_cons_of_ne_nil hrs
        simpa [List.getLast?_cons_cons] using h
      unfold receive_loop
      split
      · simp
      · split
        · simp
        · exact ih _ hlast

/-- The call of the worker returns in the worlds of `answers_suffice`. -/
theorem worker_call_returns (t : Transport) (upload_cnt idx : Nat) (w : World)
    (h : answers_suffice upload_cnt idx w) :
    ∃ c, (worker_call t upload_cnt idx w).1 = Outcome.ret c := by
  unfold answers_suffice at h
  unfold worker_call
  split
  · rename_i hup
    rw [if_pos hup] at h
    rcases h with hf | ⟨content, hf, hs, hp, hr⟩
    · cases t
      · exact ⟨-2, by simp [upload, upload_mp, hf]⟩
      · exact ⟨-2, by simp [upload, upload_pipe, hf]⟩
    · have hpne : w.polls ≠ [] := by
        intro hn; rw [hn] at hp; simp at hp
      cases t
      · simp only [upload, upload_mp, hf]
        split
        · exact ⟨-1, rfl⟩
        · exact returns_upload_loop_mp _ _ _ _ hs hpne hr
      · simp only [upload, upload_pipe, hf]
        split
        · exact ⟨-1, rfl⟩
        · have hb := reads_pipe_bounds content w.read_err
          exact returns_upload_loop_pipe _ _ _ hb.1 (by omega) (by omega) hr
  · rename_i hup
    rw [if_neg hup] at h
    cases hrc : w.rcvs with
    | nil => rw [hrc] at h; simp at h
    | cons r rs =>
      have hloop : ∀ filesize, rs ≠ [] →
          (receive_loop filesize 0 rs).1 ≠ LoopEnd.waiting := by
        intro filesize hrs
        apply receive_loop_ends
        obtain ⟨x, xs, rfl⟩ := List.exists_cons_of_ne_nil hrs
        rw [hrc] at h
        simpa [List.getLast?_cons_cons] using h
      cases r with
      | err =>
        cases t
        · simp only [download, download_mp, hrc]
          split
          · exact ⟨-1, rfl⟩
          · split
            · exact ⟨-2, rfl⟩
            · exact ⟨-3, rfl⟩
        · simp only [download, download_pipe, hrc]
          split
          · exact ⟨-1, rfl⟩
          · split
            · exact ⟨-2, rfl⟩
            · exact ⟨-3, rfl⟩
      | data b =>
        have hrs : rs ≠ [] := by
          intro hn
          rw [hrc, hn] at h
          simp at h
        cases t
        · simp only [download, download_mp, hrc]
          split
          · exact ⟨-1, rfl⟩
          · split
            · exact ⟨-2, rfl⟩
            · have hl := hloop (header_size b w.stale) hrs
              simp only [after_fst]
              split
              · rename_i evs heq
                exact absurd (by rw [heq]) hl
              · exact ⟨-3, rfl⟩
              · exact ⟨1, rfl⟩
        · simp only [download, download_pipe, hrc]
          split
          · exact ⟨-1, rfl⟩
          · split
            · exact ⟨-2, rfl⟩
            · have hl := hloop (header_size b w.stale) hrs
              simp only [after_fst]
              split
              · rename_i evs heq
                exact absurd (by rw [heq]) hl
              · exact ⟨-3, rfl⟩
              · exact ⟨_, rfl⟩

/-! ### The values the client procedures return -/

theorem ret_drain_upload_mp (polls : List (Option Stat)) (c : Int)
    (h : (drain_upload_mp polls).1 = Outcome.ret c) : c = 1 ∨ c = -5 := by
  induction polls with
  | nil => simp [drain_upload_mp] at h
  | cons a polls ih =>
    cases a with
    | none => simp [drain_upload_mp] at h; omega
    | some st =>
      unfold drain_upload_mp at h
      split at h
      · simp at h; omega
      · exact ih h

theorem ret_upload_loop_mp : ∀ (chunks : List (List Nat)) (mtype : Int) (snds : List Bool)
    (polls : List (Option Stat)) (c : Int),
    (upload_loop_mp chunks mtype snds polls).1 = Outcome.ret c → c = 1 ∨ c = -4 ∨ c = -5 := by
  intro chunks
  induction chunks with
  | nil =>
    intro _ _ polls c h
    rcases ret_drain_upload_mp polls c h with h | h <;> simp [h]
  | cons ch cs ih =>
    intro mtype snds polls c h
    match snds with
    | [] => simp [upload_loop_mp] at h
    | false :: _ => simp [upload_loop_mp] at h; omega
    | true :: snds => exact ih _ _ _ c h

theorem ret_upload_mp (w : World) (c : Int) (h : (upload_mp w).1 = Outcome.ret c) :
    is_result c := by
  unfold is_result
  unfold upload_mp at h
  split at h
  · simp at h; omega
  · split at h
    · simp at h; omega
    · rcases ret_upload_loop_mp _ _ _ _ c h with h | h | h <;> simp [h]

theorem ret_drain_upload_pipe (polls : List (Option Stat)) (c : Int)
    (h : (drain_upload_pipe polls).1 = Outcome.ret c) : c = 1 := by
  induction polls with
  | nil => simp [drain_upload_pipe] at h
  | cons a polls ih =>
    unfold drain_upload_pipe at h
    split at h
    · exact ih h
    · simp at h; omega

theorem ret_upload_loop_pipe : ∀ (reads : List Rd) (snds : List Bool)
    (polls : List (Option Stat)) (c : Int),
    (upload_loop_pipe reads snds polls).1 = Outcome.ret c → c = 1 ∨ c = -3 ∨ c = -4 := by
  intro reads
  induction reads with
  | nil =>
    intro _ polls c h
    exact Or.inl (ret_drain_upload_pipe polls c h)
  | cons r rs ih =>
    intro snds polls c h
    cases r with
    | err => simp [upload_loop_pipe] at h; omega
    | data ch =>
      unfold upload_loop_pipe at h
      rcases hwr : wait_remain_pipe ch.length polls with ⟨_ | polls2, evs⟩
      · rw [hwr] at h; simp at h
      · rw [hwr] at h
        simp only at h
        match snds with
        | [] => simp at h
        | false :: _ => simp at h; omega
        | true :: snds => exact ih _ _ c h

theorem ret_upload_pipe (w : World) (c : Int) (h : (upload_pipe w).1 = Outcome.ret c) :
    is_result c := by
  unfold is_result
  unfold upload_pipe at h
  split at h
  · simp at h; omega
  · split at h
    · simp at h; omega
    · rcases ret_upload_loop_pipe _ _ _ c h with h | h | h <;> simp [h]

theorem ret_download_mp (w : World) (c : Int) (h : (download_mp w).1 = Outcome.ret c) :
    c = 1 ∨ c = -1 ∨ c = -2 ∨ c = -3 := by
  unfold download_mp at h
  split at h
  · simp at h; omega
  · split at h
    · simp at h; omega
    · rw [after_fst] at h
      split at h
      · simp at h
      · simp at h; omega
      · rw [after_fst] at h
        split at h
        · simp at h
        · simp at h; omega
        · simp at h; omega

theorem ret_download_pipe (w : World) (c : Int) (h : (download_pipe w).1 = Outcome.ret c) :
    is_result c := by
  unfold is_result
  unfold download_pipe at h
  split at h
  · simp at h; omega
  · split at h
    · simp at h; omega
    · split at h
      · simp at h
      · simp at h; omega
      · rw [after_fst] at h
        split at h
        · simp at h
        · simp at h; omega
        · simp only [Outcome.ret.injEq] at h
          split at h <;> omega

theorem ret_worker_call (t : Transport) (upload_cnt idx : Nat) (w : World) (c : Int)
    (h : (worker_call t upload_cnt idx w).1 = Outcome.ret c) : is_result c := by
  unfold worker_call at h
  split at h
  · cases t
    · exact ret_upload_mp w c h
    · exact ret_upload_pipe w c h
  · cases t
    · rcases ret_download_mp w c h with h | h | h | h <;> simp [is_result, h]
    · exact ret_download_pipe w c h

/-- C8, as stated, fails: a worker whose call does not return writes nothing.
The download worker of an empty file has received the header and is inside the
receive of a chunk that does not come, and the upload worker of a stalled peer
is spinning in its drain loop: neither has stored anything and the slot still
holds 0. -/
theorem blocked_worker_counterexample :
    (worker_call Transport.mp 0 0 world_recv_empty).1 = Outcome.blocked ∧
    file_task_stores Transport.mp 0 0 world_recv_empty = [] ∧
    file_task Transport.mp 0 0 world_recv_empty [0] = [0] ∧
    file_task_stores Transport.pipe 0 0 world_recv_empty = [] ∧
    (worker_call Transport.mp 1 0 world_stalled).1 = Outcome.blocked ∧
    file_task_stores Transport.mp 1 0 world_stalled = [] ∧
    file_task Transport.mp 1 0 world_stalled [0] = [0] := by
  refine ⟨?_, ?_, ?_, ?_, ?_, ?_, ?_⟩ <;> decide

/-- C8, amended: status exclusivity on the client.  For every transport,
index and world, `file_task` stores into `result_flag` at most once; when
`upload` or `download` has returned it stores exactly once, at `idx`, the value
returned, which is not 0 and is 1 or one of -1 to -5; while the call has not
returned nothing is stored; every other slot of the table keeps its value; and
in the worlds of `answers_suffice` (the file cannot be opened, or the sends are
answered and the polls show a drained channel with room, or the last receive
answered is an error) the call does return and the store is made. -/
theorem status_written_once (t : Transport) (upload_cnt idx : Nat) (w : World)
    (result_flag : List Int) :
    (file_task_stores t upload_cnt idx w).length ≤ 1 ∧
    (∀ code, (worker_call t upload_cnt idx w).1 = Outcome.ret code →
      file_task_stores t upload_cnt idx w = [(idx, code)] ∧ code ≠ 0 ∧ is_result code ∧
      file_task t upload_cnt idx w result_flag = result_flag.set idx code) ∧
    ((worker_call t upload_cnt idx w).1 = Outcome.blocked →
      file_task_stores t upload_cnt idx w = [] ∧
      file_task t upload_cnt idx w result_flag = result_flag) ∧
    (file_task t upload_cnt idx w result_flag).length = result_flag.length ∧
    (∀ j, j ≠ idx → (file_task t upload_cnt idx w result_flag)[j]? = result_flag[j]?) ∧
    (answers_suffice upload_cnt idx w →
      ∃ code, file_task_stores t upload_cnt idx w = [(idx, code)] ∧ code ≠ 0 ∧
        is_result code ∧
        file_task t upload_cnt idx w result_flag = result_flag.set idx code) := by
  have hdef : file_task_stores t upload_cnt idx w =
      match (worker_call t upload_cnt idx w).1 with
      | Outcome.ret code => [(idx, code)]
      | Outcome.blocked => [] := rfl
  have hret : ∀ code, (worker_call t upload_cnt idx w).1 = Outcome.ret code →
      file_task_stores t upload_cnt idx w = [(idx, code)] ∧ code ≠ 0 ∧ is_result code ∧
      file_task t upload_cnt idx w result_flag = result_flag.set idx code := by
    intro code hcode
    rw [hcode] at hdef
    simp only at hdef
    have hres := ret_worker_call t upload_cnt idx w code hcode
    have hne : code ≠ 0 := by
      unfold is_result at hres
      omega
    exact ⟨hdef, hne, hres, by simp [file_task, hdef, apply_stores]⟩
  have hsuff : answers_suffice upload_cnt idx w →
      ∃ code, file_task_stores t upload_cnt idx w = [(idx, code)] ∧ code ≠ 0 ∧
        is_result code ∧
        file_task t upload_cnt idx w result_flag = result_flag.set idx code := by
    intro h
    obtain ⟨c, hc⟩ := worker_call_returns t upload_cnt idx w h
    exact ⟨c, hret c hc⟩
  have hcases : (∃ c, (worker_call t upload_cnt idx w).1 = Outcome.ret c) ∨
      (worker_call t upload_cnt idx w).1 = Outcome.blocked := by
    cases (worker_call t upload_cnt idx w).1 with
    | ret c => exact Or.inl ⟨c, rfl⟩
    | blocked => exact Or.inr rfl
  rcases hcases with ⟨c, hcall⟩ | hcall
  · obtain ⟨h1, _, _, h4⟩ := hret c hcall
    refine ⟨by simp [h1], hret, by simp [hcall], ?_, ?_, hsuff⟩
    · rw [h4]; simp
    · intro j hj
      rw [h4]
      exact List.getElem?_set_ne (Ne.symm hj)
  · rw [hcall] at hdef
    simp only at hdef
    refine ⟨by simp [hdef], hret, ?_, ?_, ?_, hsuff⟩
    · intro _
      exact ⟨hdef, by simp [file_task, hdef, apply_stores]⟩
    · simp [file_task, hdef, apply_stores]
    · intro j _
      simp [file_task, hdef, apply_stores]

/-- Runs of C8 amended: an upload and a download worker in each transport,
the downloads whose destination cannot be opened, and the failures of the
uploads and of the downloads; the world of the first run is one of
`answers_suffice`. -/
theorem status_written_once_witness :
    answers_suffice 1 0 world_drained ∧
    (∃ code, file_task_stores Transport.mp 1 0 world_drained = [(0, code)] ∧ code ≠ 0 ∧
      is_result code ∧
      file_task Transport.mp 1 0 world_drained [0, 0] = [0, 0].set 0 code) ∧
    file_task Transport.mp 1 0 world_drained [0, 0] = [1, 0] ∧
    file_task Transport.pipe 1 0 world_drained [0, 0] = [1, 0] ∧
    file_task Transport.mp 1 0 world_send [0, 0] = [1, 0] ∧
    file_task Transport.pipe 1 0 world_send [0, 0] = [1, 0] ∧
    file_task Transport.mp 1 1 world_recv_byte [0, 0] = [0, 1] ∧
    file_task Transport.pipe 1 1 world_recv_byte [0, 0] = [0, 1] ∧
    file_task Transport.mp 0 0 world_no_dest [0] = [-3] ∧
    file_task Transport.pipe 0 0 world_no_dest [0] = [-2] ∧
    (file_task Transport.mp 1 0 world_no_dest [0] = [-2] ∧
      file_task Transport.pipe 1 0 world_no_dest [0] = [-2] ∧
      file_task Transport.mp 1 0 world_no_chan [0] = [-1] ∧
      file_task Transport.pipe 1 0 world_no_chan [0] = [-1] ∧
      file_task Transport.mp 1 0 world_send_fails [0] = [-4] ∧
      file_task Transport.pipe 1 0 world_send_fails [0] = [-4] ∧
      file_task Transport.mp 1 0 world_poll_fails [0] = [-5]) ∧
    (file_task Transport.mp 0 0 world_no_chan [0] = [-1] ∧
      file_task Transport.pipe 0 0 world_no_chan [0] = [-1] ∧
      file_task Transport.mp 0 0 (world_recv [Rd.err]) [0] = [-3] ∧
      file_task Transport.pipe 0 0 (world_recv [Rd.err]) [0] = [-3]) :=
  have hs : answers_suffice 1 0 world_drained := by
    unfold answers_suffice
    rw [if_pos (by decide)]
    refine Or.inr ⟨[7], rfl, by decide, by decide, ?_⟩
    intro a ha
    simp only [world_drained, world_send, List.mem_cons, List.mem_singleton, List.not_mem_nil,
      or_false] at ha
    rcases ha with rfl | rfl | rfl
    all_goals exact ⟨_, rfl, rfl, by decide⟩
  ⟨hs, (status_written_once Transport.mp 1 0 world_drained [0, 0]).2.2.2.2.2 hs,
    by decide, by decide, by decide, by decide, by decide, by decide, by decide, by decide,
    by decide, by decide⟩

/-- C9, the code at the failing input: in `download` of `client_mp.c`, when
the destination file cannot be opened while the queue is there, the queue is
removed, the function goes on, the receive on the removed queue fails and the
result is -3, which `flag_to_state` renders as "Fail to msgrcv.."; whenever
that first removal succeeds the result is not -2.  The three other procedures
return -2, rendered "Fail to open file..", when their file cannot be opened. -/
theorem download_mp_open_failure :
    download_mp world_no_dest = (Outcome.ret (-3), [Ev.rmid, Ev.rcv Rd.err, Ev.rmid]) ∧
    flag_to_state Transport.mp (-3) = "Fail to msgrcv.." ∧
    flag_to_state Transport.mp (-2) = "Fail to open file.." ∧
    flag_to_state Transport.pipe (-2) = "Fail to open file.." ∧
    (∀ w : World, w.chan_ok = true → w.dest_ok = false → w.rmid_ok = true →
      (download_mp w).1 ≠ Outcome.ret (-2)) ∧
    (∀ w : World, w.chan_ok = true → w.dest_ok = false →
      (download_pipe w).1 = Outcome.ret (-2)) ∧
    (∀ w : World, w.file = none → (upload_mp w).1 = Outcome.ret (-2)) ∧
    (∀ w : World, w.file = none → (upload_pipe w).1 = Outcome.ret (-2)) := by
  refine ⟨by decide, by decide, by decide, by decide, ?_, ?_, ?_, ?_⟩
  · intro w hc hd hr h
    unfold download_mp at h
    simp only [hc, hd, hr, Bool.true_eq_false, if_false, and_false, after_fst] at h
    split at h
    · simp at h
    · simp at h
    · rw [after_fst] at h
      split at h <;> simp at h
  · intro w hc hd
    simp [download_pipe, hc, hd]
  · intro w hf
    simp [upload_mp, hf]
  · intro w hf
    simp [upload_pipe, hf]

/-! ### The destroy of the channel before a failure return -/

theorem polled_sends_polls (room : Option Stat → List Nat → Bool) :
    ∀ (pre : List (Option Stat)) (prev : Option Ev) (a : Option Stat) (rest : List Ev),
      polled_sends room prev (pre.map Ev.poll ++ Ev.poll a :: rest) =
        polled_sends room (some (Ev.poll a)) rest := by
  intro pre
  induction pre with
  | nil => intro prev a rest; simp [polled_sends]
  | cons p pre ih => intro prev a rest; simp [polled_sends, ih]

theorem polled_sends_only_polls (room : Option Stat → List Nat → Bool) :
    ∀ (pre : List (Option Stat)) (prev : Option Ev),
      polled_sends room prev (pre.map Ev.poll) = true := by
  intro pre
  induction pre with
  | nil => intro prev; rfl
  | cons p pre ih => intro prev; simp [polled_sends, ih]

/-- The busy-wait of the FIFO procedures issues polls only, and ends on a poll
that shows room for the chunk. -/
theorem wait_remain_pipe_spec (n : Nat) : ∀ (polls : List (Option Stat)),
    (∃ pre : List (Option Stat), (wait_remain_pipe n polls) = (none, pre.map Ev.poll)) ∨
    (∃ (pre : List (Option Stat)) (a : Option Stat) (left : List (Option Stat)), (wait_remain_pipe n polls) = (some left, pre.map Ev.poll ++ [Ev.poll a]) ∧
      (n : Int) ≤ get_remain_fifo_size a) := by
  intro polls
  induction polls with
  | nil => exact Or.inl ⟨[], rfl⟩
  | cons p polls ih =>
    unfold wait_remain_pipe
    split
    · rcases ih with ⟨pre, h⟩ | ⟨pre, a, left, h, ha⟩
      · exact Or.inl ⟨p :: pre, by rw [h]; rfl⟩
      · exact Or.inr ⟨p :: pre, a, left, by rw [h]; rfl, ha⟩
    · rename_i hge
      exact Or.inr ⟨[], p, polls, rfl, by omega⟩

/-- The capacity wait of `send_download` of `server_mp.c` issues polls only,
and ends on a poll after which `msqstat` shows more than `MSG_BUFFER_SZ` free bytes. -/
theorem wait_capacity_mp_spec : ∀ (polls : List (Option Stat)) (msqstat : Stat),
    (∃ pre : List (Option Stat), (wait_capacity_mp msqstat polls) = (none, pre.map Ev.poll)) ∨
    (∃ (pre : List (Option Stat)) (a : Option Stat) (st : Stat) (left : List (Option Stat)),
      (wait_capacity_mp msqstat polls) = (some (st, left), pre.map Ev.poll ++ [Ev.poll a]) ∧
      room_mp a [] = true) := by
  intro polls
  induction polls with
  | nil => intro _; exact Or.inl ⟨[], rfl⟩
  | cons p polls ih =>
    intro msqstat
    unfold wait_capacity_mp
    split
    · rename_i hgt
      refine Or.inr ⟨[], p, p.getD msqstat, polls, rfl, ?_⟩
      cases p with
      | none => rfl
      | some st => simpa [room_mp] using hgt
    · rcases ih (p.getD msqstat) with ⟨pre, h⟩ | ⟨pre, a, st, left, h, ha⟩
      · exact Or.inl ⟨p :: pre, by rw [h]; rfl⟩
      · exact Or.inr ⟨p :: pre, a, st, left, by rw [h]; rfl, ha⟩

theorem drain_upload_pipe_polls : ∀ (polls : List (Option Stat)),
    (∃ pre : List (Option Stat), (drain_upload_pipe polls).2 = pre.map Ev.poll) ∨
    (∃ (pre : List (Option Stat)) (a : Option Stat), (drain_upload_pipe polls).2 = pre.map Ev.poll ++ [Ev.poll a, Ev.close_chan]) := by
  intro polls
  induction polls with
  | nil => exact Or.inl ⟨[], rfl⟩
  | cons p polls ih =>
    unfold drain_upload_pipe
    split
    · rcases ih with ⟨pre, h⟩ | ⟨pre, a, h⟩
      · exact Or.inl ⟨p :: pre, by rw [after_snd, h]; rfl⟩
      · exact Or.inr ⟨p :: pre, a, by rw [after_snd, h]; rfl⟩
    · exact Or.inr ⟨[], p, rfl⟩

theorem polled_drain_upload_pipe (room : Option Stat → List Nat → Bool)
    (polls : List (Option Stat)) (prev : Option Ev) :
    polled_sends room prev (drain_upload_pipe polls).2 = true := by
  rcases drain_upload_pipe_polls polls with ⟨pre, h⟩ | ⟨pre, a, h⟩
  · rw [h]; exact polled_sends_only_polls room pre prev
  · rw [h, polled_sends_polls]; rfl

theorem polled_upload_loop_pipe : ∀ (reads : List Rd) (snds : List Bool)
    (polls : List (Option Stat)) (prev : Option Ev),
    polled_sends room_pipe prev (upload_loop_pipe reads snds polls).2 = true := by
  intro reads
  induction reads with
  | nil => intro _ polls prev; exact polled_drain_upload_pipe room_pipe polls prev
  | cons r rs ih =>
    intro snds polls prev
    cases r with
    | err => rfl
    | data ch =>
      unfold upload_loop_pipe
      rcases wait_remain_pipe_spec ch.length polls with ⟨pre, h⟩ | ⟨pre, a, left, h, ha⟩
      · rw [h]; exact polled_sends_only_polls room_pipe pre prev
      · rw [h]
        have hroom : room_pipe a ch = true := by simpa [room_pipe] using ha
        match snds with
        | [] => simp [polled_sends_polls, polled_sends, hroom]
        | false :: _ => simp [polled_sends_polls, polled_sends, hroom]
        | true :: snds =>
          simp [after, polled_sends_polls, polled_sends, hroom, ih snds left]

theorem polled_download_loop_pipe : ∀ (chunks : List (List Nat)) (snds : List Bool)
    (polls : List (Option Stat)) (prev : Option Ev),
    polled_sends room_pipe prev (download_loop_pipe chunks snds polls).2 = true := by
  intro chunks
  induction chunks with
  | nil => intro _ _ prev; rfl
  | cons ch cs ih =>
    intro snds polls prev
    unfold download_loop_pipe
    rcases wait_remain_pipe_spec ch.length polls with ⟨pre, h⟩ | ⟨pre, a, left, h, ha⟩
    · rw [h]; exact polled_sends_only_polls room_pipe pre prev
    · rw [h]
      have hroom : room_pipe a ch = true := by simpa [room_pipe] using ha
      match snds with
      | [] => simp [polled_sends_polls, polled_sends, hroom]
      | false :: _ => simp [polled_sends_polls, polled_sends, hroom]
      | true :: snds =>
        simp [after, polled_sends_polls, polled_sends, hroom, ih snds left]

theorem drain_download_mp_polls : ∀ (polls : List (Option Stat)),
    ∃ pre : List (Option Stat), (drain_download_mp polls).2 = pre.map Ev.poll := by
  intro polls
  induction polls with
  | nil => exact ⟨[], rfl⟩
  | cons p polls ih =>
    cases p with
    | none => exact ⟨[none], rfl⟩
    | some st =>
      unfold drain_download_mp
      split
      · exact ⟨[some st], rfl⟩
      · obtain ⟨pre, h⟩ := ih
        exact ⟨some st :: pre, by rw [after_snd, h]; rfl⟩

theorem polled_download_loop_mp : ∀ (chunks : List (List Nat)) (mtype : Int) (msqstat : Stat)
    (snds : List Bool) (polls : List (Option Stat)) (prev : Option Ev),
    polled_sends room_mp prev (download_loop_mp chunks mtype msqstat snds polls).2 = true := by
  intro chunks
  induction chunks with
  | nil =>
    intro _ _ _ polls prev
    obtain ⟨pre, h⟩ := drain_download_mp_polls polls
    simp only [download_loop_mp, h]
    exact polled_sends_only_polls room_mp pre prev
  | cons ch cs ih =>
    intro mtype msqstat snds polls prev
    unfold download_loop_mp
    rcases wait_capacity_mp_spec polls msqstat with ⟨pre, h⟩ | ⟨pre, a, st, left, h, ha⟩
    · rw [h]; exact polled_sends_only_polls room_mp pre prev
    · rw [h]
      have hroom : room_mp a ch = true := ha
      match snds with
      | [] => simp [polled_sends_polls, polled_sends, hroom]
      | false :: _ => simp [polled_sends_polls, polled_sends, hroom]
      | true :: snds =>
        simp [after, polled_sends_polls, polled_sends, hroom, ih (mtype + 1) st snds left]

/-- In `upload` of `client_pipe.c` and in `send_download` of both servers,
every chunk send comes right after a poll that passed the capacity test. -/
theorem polled_sends_siblings (w : World) :
    polled_sends room_pipe none (upload_pipe w).2 = true ∧
    polled_sends room_pipe none (send_download_pipe w).2 = true ∧
    polled_sends room_mp none (send_download_mp w).2 = true := by
  refine ⟨?_, ?_, ?_⟩
  · unfold upload_pipe
    split
    · rfl
    · split
      · rfl
      · exact polled_upload_loop_pipe _ _ _ _
  · unfold send_download_pipe
    split
    · rfl
    · split
      · rfl
      · split
        · rfl
        · rfl
        · simp [after, polled_sends, polled_download_loop_pipe]
  · unfold send_download_mp
    split
    · rfl
    · split
      · rfl
      · split
        · rfl
        · rfl
        · simp [after, polled_sends, polled_download_loop_mp]

/-! ### The drain poll before a success return -/

theorem drain_confirmed_of_last_poll (pre : List Ev) (a : Option Stat)
    (h : get_used_fifo_size a = 0) :
    drain_confirmed (pre ++ [Ev.poll a]) = true ∧
    drain_confirmed (pre ++ [Ev.poll a, Ev.close_chan]) = true := by
  have hp : (Ev.poll a != Ev.close_chan) = true := by simp
  have hc : (Ev.close_chan != Ev.close_chan) = false := by simp
  have h1 : List.filter (fun e => e != Ev.close_chan) [Ev.poll a] = [Ev.poll a] := by
    simp only [List.filter, hp]
  have h2 : List.filter (fun e => e != Ev.close_chan) [Ev.poll a, Ev.close_chan] =
      [Ev.poll a] := by
    simp only [List.filter, hp, hc]
  constructor
  · unfold drain_confirmed
    rw [List.filter_append, h1, List.getLast?_append, List.getLast?_singleton]
    simp [h]
  · unfold drain_confirmed
    rw [List.filter_append, h2, List.getLast?_append, List.getLast?_singleton]
    simp [h]

theorem drained_drain_upload_mp (polls : List (Option Stat))
    (h : (drain_upload_mp polls).1 = Outcome.ret 1) :
    ∃ (pre : List Ev) (a : Option Stat),
      (drain_upload_mp polls).2 = pre ++ [Ev.poll a] ∧ get_used_fifo_size a = 0 := by
  induction polls with
  | nil => simp [drain_upload_mp] at h
  | cons p polls ih =>
    cases p with
    | none => simp [drain_upload_mp] at h
    | some st =>
      unfold drain_upload_mp at h ⊢
      split at h
      · rename_i hc
        rw [if_pos hc]
        exact ⟨[], some st, rfl, by simp [get_used_fifo_size, hc]⟩
      · rename_i hc
        rw [if_neg hc]
        obtain ⟨pre, a, hpre, ha⟩ := ih h
        exact ⟨Ev.poll (some st) :: pre, a, by rw [after_snd, hpre]; rfl, ha⟩

theorem drained_upload_loop_mp : ∀ (chunks : List (List Nat)) (mtype : Int) (snds : List Bool)
    (polls : List (Option Stat)), (upload_loop_mp chunks mtype snds polls).1 = Outcome.ret 1 →
    ∃ (pre : List Ev) (a : Option Stat),
      (upload_loop_mp chunks mtype snds polls).2 = pre ++ [Ev.poll a] ∧
      get_used_fifo_size a = 0 := by
  intro chunks
  induction chunks with
  | nil => intro _ _ polls h; exact drained_drain_upload_mp polls h
  | cons ch cs ih =>
    intro mtype snds polls h
    match snds with
    | [] => simp [upload_loop_mp] at h
    | false :: _ => simp [upload_loop_mp] at h
    | true :: snds =>
      obtain ⟨pre, a, hpre, ha⟩ := ih (mtype + 1) snds polls h
      exact ⟨Ev.snd mtype ch Res.ok :: pre, a, by
        simp only [upload_loop_mp, after_snd, hpre]; rfl, ha⟩

theorem drained_drain_upload_pipe (polls : List (Option Stat))
    (h : (drain_upload_pipe polls).1 = Outcome.ret 1) :
    ∃ (pre : List Ev) (a : Option Stat),
      (drain_upload_pipe polls).2 = pre ++ [Ev.poll a, Ev.close_chan] ∧
      get_used_fifo_size a = 0 := by
  induction polls with
  | nil => simp [drain_upload_pipe] at h
  | cons p polls ih =>
    unfold drain_upload_pipe at h ⊢
    split at h
    · rename_i hc
      rw [if_pos hc]
      obtain ⟨pre, a, hpre, ha⟩ := ih h
      exact ⟨Ev.poll p :: pre, a, by rw [after_snd, hpre]; rfl, ha⟩
    · rename_i hc
      rw [if_neg hc]
      exact ⟨[], p, rfl, by simpa using hc⟩

theorem drained_upload_loop_pipe : ∀ (reads : List Rd) (snds : List Bool)
    (polls : List (Option Stat)), (upload_loop_pipe reads snds polls).1 = Outcome.ret 1 →
    ∃ (pre : List Ev) (a : Option Stat),
      (upload_loop_pipe reads snds polls).2 = pre ++ [Ev.poll a, Ev.close_chan] ∧
      get_used_fifo_size a = 0 := by
  intro reads
  induction reads with
  | nil => intro _ polls h; exact drained_drain_upload_pipe polls h
  | cons r rs ih =>
    intro snds polls h
    cases r with
    | err => simp [upload_loop_pipe] at h
    | data ch =>
      unfold upload_loop_pipe at h ⊢
      rcases hwr : wait_remain_pipe ch.length polls with ⟨_ | polls2, evs⟩
      · rw [hwr] at h; simp at h
      · rw [hwr] at h
        simp only at h ⊢
        match snds with
        | [] => simp at h
        | false :: _ => simp at h
        | true :: snds =>
          obtain ⟨pre, a, hpre, ha⟩ := ih snds polls2 h
          exact ⟨evs ++ [Ev.snd 0 ch Res.ok] ++ pre, a, by
            simp only [after_snd, hpre, List.append_assoc], ha⟩

theorem drained_drain_download_mp (polls : List (Option Stat))
    (h : (drain_download_mp polls).1 = Outcome.ret 0) :
    ∃ (pre : List Ev) (a : Option Stat),
      (drain_download_mp polls).2 = pre ++ [Ev.poll a] ∧ get_used_fifo_size a = 0 := by
  induction polls with
  | nil => simp [drain_download_mp] at h
  | cons p polls ih =>
    cases p with
    | none => simp [drain_download_mp] at h
    | some st =>
      unfold drain_download_mp at h ⊢
      split at h
      · rename_i hc
        rw [if_pos hc]
        exact ⟨[], some st, rfl, by simp [get_used_fifo_size, hc]⟩
      · rename_i hc
        rw [if_neg hc]
        obtain ⟨pre, a, hpre, ha⟩ := ih h
        exact ⟨Ev.poll (some st) :: pre, a, by rw [after_snd, hpre]; rfl, ha⟩

theorem drained_download_loop_mp : ∀ (chunks : List (List Nat)) (mtype : Int) (msqstat : Stat)
    (snds : List Bool) (polls : List (Option Stat)),
    (download_loop_mp chunks mtype msqstat snds polls).1 = Outcome.ret 0 →
    ∃ (pre : List Ev) (a : Option Stat),
      (download_loop_mp chunks mtype msqstat snds polls).2 = pre ++ [Ev.poll a] ∧
      get_used_fifo_size a = 0 := by
  intro chunks
  induction chunks with
  | nil => intro _ _ _ polls h; exact drained_drain_download_mp polls h
  | cons ch cs ih =>
    intro mtype msqstat snds polls h
    unfold download_loop_mp at h ⊢
    rcases hwr : wait_capacity_mp msqstat polls with ⟨_ | ⟨st2, polls2⟩, evs⟩
    · rw [hwr] at h; simp at h
    · rw [hwr] at h
      simp only at h ⊢
      match snds with
      | [] => simp at h
      | false :: _ => simp at h
      | true :: snds =>
        obtain ⟨pre, a, hpre, ha⟩ := ih (mtype + 1) st2 snds polls2 h
        exact ⟨evs ++ [Ev.snd (mtype + 1) ch Res.ok] ++ pre, a, by
          simp only [after_snd, hpre, List.append_assoc], ha⟩

/-- In `upload` of both clients and in `send_download` of `server_mp.c`, a
success return comes after a poll that read 0 pending bytes, the last call on
the channel but for the close of the descriptor. -/
theorem drain_confirmed_siblings (w : World) :
    ((upload_mp w).1 = Outcome.ret 1 → drain_confirmed (upload_mp w).2 = true) ∧
    ((upload_pipe w).1 = Outcome.ret 1 → drain_confirmed (upload_pipe w).2 = true) ∧
    ((send_download_mp w).1 = Outcome.ret 0 →
      drain_confirmed (send_download_mp w).2 = true) := by
  refine ⟨?_, ?_, ?_⟩
  · intro h
    unfold upload_mp at h ⊢
    split at h
    · simp at h
    · split at h
      · simp at h
      · rename_i hch
        rw [if_neg hch]
        obtain ⟨pre, a, hpre, ha⟩ := drained_upload_loop_mp _ _ _ _ h
        rw [hpre]
        exact (drain_confirmed_of_last_poll pre a ha).1
  · intro h
    unfold upload_pipe at h ⊢
    split at h
    · simp at h
    · split at h
      · simp at h
      · rename_i hch
        rw [if_neg hch]
        obtain ⟨pre, a, hpre, ha⟩ := drained_upload_loop_pipe _ _ _ h
        rw [hpre]
        exact (drain_confirmed_of_last_poll pre a ha).2
  · intro h
    unfold send_download_mp at h ⊢
    split at h
    · simp at h
    · split at h
      · simp at h
      · rename_i hch
        rw [if_neg hch]
        split at h
        · simp at h
        · simp at h
        · rw [after_fst] at h
          obtain ⟨pre, a, hpre, ha⟩ := drained_download_loop_mp _ _ _ _ _ h
          rw [after_snd, hpre, ← List.append_assoc]
          exact (drain_confirmed_of_last_poll _ a ha).1

/-! ### Basename stripping -/

theorem strchr_none (s : List Char) (c : Char) (h : strchr s c = none) : c ∉ s := by
  unfold strchr at h
  split at h
  · rename_i hd
    rw [List.dropWhile_eq_nil_iff] at hd
    intro hc
    simpa using hd c hc
  · simp at h

theorem strchr_some (s : List Char) (c : Char) (r : List Char) (h : strchr s c = some r) :
    ∃ a t, s = a ++ c :: t ∧ r = c :: t ∧ c ∉ a := by
  unfold strchr at h
  split at h
  · simp at h
  · rename_i x t hd
    simp only [Option.some.injEq] at h
    have hsplit := List.takeWhile_append_dropWhile (fun y => y != c) s
    have hx : x = c := by
      have hnot := List.head_dropWhile_not (fun y => y != c) s (by rw [hd]; simp)
      simp only [hd, List.head_cons] at hnot
      simpa using hnot
    subst hx
    refine ⟨s.takeWhile (fun y => y != x), t, ?_, h.symm, ?_⟩
    · rw [← hd]; exact hsplit.symm
    · intro hmem
      have := List.mem_takeWhile_imp hmem
      simp at this

theorem get_last_filename_loop_spec : ∀ (fuel : Nat) (filename : List Char),
    filename.length ≤ fuel →
    '/' ∉ get_last_filename_loop fuel filename ∧
    ∃ pre, filename = pre ++ get_last_filename_loop fuel filename ∧
      (pre = [] ∨ ∃ q, pre = q ++ ['/']) := by
  intro fuel
  induction fuel with
  | zero =>
    intro filename h
    have : filename = [] := List.length_eq_zero.mp (Nat.le_zero.mp h)
    subst this
    exact ⟨by simp [get_last_filename_loop], [], rfl, Or.inl rfl⟩
  | succ f ih =>
    intro filename h
    unfold get_last_filename_loop
    cases hs : strchr filename '/' with
    | none =>
      exact ⟨strchr_none filename '/' hs, [], rfl, Or.inl rfl⟩
    | some temp =>
      obtain ⟨a, t, hfile, htemp, _⟩ := strchr_some filename '/' temp hs
      subst htemp
      simp only [List.drop_succ_cons, List.drop_zero]
      have hlen : t.length ≤ f := by
        rw [hfile] at h
        simp only [List.length_append, List.length_cons] at h
        omega
      obtain ⟨h1, pre, h2, _⟩ := ih t hlen
      refine ⟨h1, a ++ '/' :: pre, ?_, Or.inr ?_⟩
      · rw [hfile, List.append_assoc, List.cons_append, ← h2]
      · rcases ‹pre = [] ∨ ∃ q, pre = q ++ ['/']› with hp | ⟨q, hq⟩
        · exact ⟨a, by rw [hp]⟩
        · exact ⟨a ++ '/' :: q, by rw [hq]; simp⟩

/-- C19: basename stripping.  For every path `p`, `get_last_filename p` has
no slash, and `p` is a part that is empty or ends in a slash followed by the
result: the result is the text after the last slash of `p`, and all of `p`
when `p` has no slash. -/
theorem get_last_filename_spec (p : List Char) :
    '/' ∉ get_last_filename p ∧
    (∃ pre, p = pre ++ get_last_filename p ∧ (pre = [] ∨ ∃ q, pre = q ++ ['/'])) ∧
    ('/' ∉ p → get_last_filename p = p) := by
  obtain ⟨h1, pre, h2, h3⟩ := get_last_filename_loop_spec p.length p (Nat.le_refl _)
  refine ⟨h1, ⟨pre, h2, h3⟩, ?_⟩
  intro hp
  rcases h3 with h3 | ⟨q, hq⟩
  · rw [h3] at h2
    simpa using h2.symm
  · exfalso
    apply hp
    rw [h2, hq]
    simp

/-! ### The FIFO paths of a client -/

theorem sign_value_sprintf_d (v : Int) : sign_value (sprintf_d v) = v := by
  have hval := print_nat_value v.natAbs
  obtain ⟨d, ds, hds⟩ := List.exists_cons_of_ne_nil (print_nat_ne_nil v.natAbs)
  have hd : isdigit d = true := print_nat_isdigit v.natAbs d (by rw [hds]; simp)
  have hdm : d ≠ '-' := (isdigit_facts d hd).2.2.1
  unfold sprintf_d
  split
  · simp only [sign_value, if_true, hval]
    omega
  · rw [hds]
    simp only [sign_value, hdm, if_false]
    rw [← hds, hval]
    omega

theorem sprintf_d_injective (v v' : Int) (h : sprintf_d v = sprintf_d v') : v = v' := by
  have := congrArg sign_value h
  rwa [sign_value_sprintf_d, sign_value_sprintf_d] at this

theorem no_underscore_sprintf_d (v : Int) : ∀ c ∈ sprintf_d v, (c != '_') = true := by
  intro c hc
  have hdig : ∀ x, isdigit x = true → (x != '_') = true := by
    intro x hx
    simp only [isdigit, Bool.and_eq_true, decide_eq_true_eq] at hx
    simp only [bne_iff_ne, ne_eq]
    rintro rfl
    revert hx
    decide
  unfold sprintf_d at hc
  split at hc
  · simp only [List.mem_cons] at hc
    rcases hc with rfl | hc
    · decide
    · exact hdig c (print_nat_isdigit _ c hc)
  · exact hdig c (print_nat_isdigit _ c hc)

theorem split_at_underscore (a b a' b' : List Char)
    (ha : ∀ c ∈ a, (c != '_') = true) (ha' : ∀ c ∈ a', (c != '_') = true)
    (h : a ++ '_' :: b = a' ++ '_' :: b') : a = a' ∧ b = b' := by
  have hu : (fun c : Char => c != '_') '_' = false := by decide
  have h1 := takeWhile_run (fun c => c != '_') a '_' b ha hu
  have h2 := takeWhile_run (fun c => c != '_') a' '_' b' ha' hu
  rw [h] at h1
  have haa : a = a' := by rw [← h1, h2]
  subst haa
  have := List.append_cancel_left h
  exact ⟨rfl, by simpa using this⟩

theorem fifo_path_inj (p q i j : Int) (h : fifo_path p i = fifo_path q j) : p = q ∧ i = j := by
  unfold fifo_path at h
  rw [List.append_assoc, List.append_assoc] at h
  have h' := List.append_cancel_left h
  obtain ⟨h1, h2⟩ := split_at_underscore _ _ _ _ (no_underscore_sprintf_d p)
    (no_underscore_sprintf_d q) h'
  exact ⟨sprintf_d_injective _ _ h1, sprintf_d_injective _ _ h2⟩

/-- C13: the FIFO path `./fifo/<p>_<i>` is injective in the pair of process
id and index, and the paths of one batch are pairwise distinct. -/
theorem fifo_path_injective :
    (∀ p q i j : Int, fifo_path p i = fifo_path q j → p = q ∧ i = j) ∧
    ∀ (pid : Int) (cnt : Nat), (fifo_paths pid cnt).Nodup := by
  refine ⟨fifo_path_inj, ?_⟩
  intro pid cnt
  unfold fifo_paths
  refine List.Nodup.map ?_ (List.nodup_range cnt)
  intro a b hab
  have := (fifo_path_inj pid pid a b hab).2
  exact_mod_cast this

/-! ### Allocation of the message queues -/

theorem msgget_excl_used (used : List Int) (qid : Int → Nat) (key : Int) (h : key ∈ used) :
    msgget_excl used qid key = -1 := by
  simp [msgget_excl, h]

theorem msgget_excl_free (used : List Int) (qid : Int → Nat) (key : Int) (h : key ∉ used) :
    msgget_excl used qid key = (qid key : Int) := by
  simp [msgget_excl, h]

theorem candidates_succ (lo n : Nat) :
    candidates lo (n + 1) = (IO_MP_KEY_BASE + (lo : Int)) :: candidates (lo + 1) n := by
  simp [candidates, List.range'_succ]

/-- The loop of `get_msg_queue_io` when the candidate `j0` is free and those
before it are in use: it stops at `j0`. -/
theorem get_msg_queue_io_loop_free (used : List Int) (qid : Int → Nat) (j0 : Nat)
    (hj0 : j0 < 10) (hfree : IO_MP_KEY_BASE + (j0 : Int) ∉ used) :
    ∀ (fuel index : Nat) (tried : List Int), index ≤ j0 → j0 < index + fuel →
      (∀ j : Nat, index ≤ j → j < j0 → IO_MP_KEY_BASE + (j : Int) ∈ used) →
      get_msg_queue_io_loop used qid fuel index tried =
        ((qid (IO_MP_KEY_BASE + (j0 : Int)) : Int), IO_MP_KEY_BASE + (j0 : Int), false,
          tried ++ candidates index (j0 + 1 - index)) := by
  intro fuel
  induction fuel with
  | zero => intro index tried h1 h2; omega
  | succ f ih =>
    intro index tried h1 h2 hused
    unfold get_msg_queue_io_loop
    by_cases heq : index = j0
    · subst heq
      have hge : ¬ msgget_excl used qid (IO_MP_KEY_BASE + (index : Int)) < 0 := by
        rw [msgget_excl_free used qid _ hfree]; omega
      rw [if_neg hge, msgget_excl_free used qid _ hfree]
      have : index + 1 - index = 1 := by omega
      rw [this, candidates_succ]
      simp [candidates]
    · have hin := hused index (Nat.le_refl _) (by omega)
      have hlt : msgget_excl used qid (IO_MP_KEY_BASE + (index : Int)) < 0 := by
        rw [msgget_excl_used used qid _ hin]; decide
      rw [if_pos hlt, if_neg (by omega)]
      rw [ih (index + 1) _ (by omega) (by omega) (fun j hj1 hj2 => hused j (by omega) hj2)]
      have : j0 + 1 - index = (j0 + 1 - (index + 1)) + 1 := by omega
      rw [this, candidates_succ]
      simp

/-- The loop of `get_msg_queue_io` when every candidate left is in use: it
fails after the candidate of index 9. -/
theorem get_msg_queue_io_loop_full (used : List Int) (qid : Int → Nat) :
    ∀ (fuel index : Nat) (tried : List Int), index + fuel = 10 → 1 ≤ fuel →
      (∀ j : Nat, index ≤ j → j < 10 → IO_MP_KEY_BASE + (j : Int) ∈ used) →
      get_msg_queue_io_loop used qid fuel index tried =
        (-1, IO_MP_KEY_BASE + 9, true, tried ++ candidates index (10 - index)) := by
  intro fuel
  induction fuel with
  | zero => intro index tried _ h; omega
  | succ f ih =>
    intro index tried hsum _ hused
    unfold get_msg_queue_io_loop
    have hin := hused index (Nat.le_refl _) (by omega)
    have hlt : msgget_excl used qid (IO_MP_KEY_BASE + (index : Int)) < 0 := by
      rw [msgget_excl_used used qid _ hin]; decide
    rw [if_pos hlt]
    by_cases h9 : index + 1 ≥ 10
    · have hidx : index = 9 := by omega
      subst hidx
      rw [if_pos h9, msgget_excl_used used qid _ hin]
      simp [candidates]
    · rw [if_neg h9]
      rw [ih (index + 1) _ (by omega) (by omega) (fun j hj1 hj2 => hused j (by omega) hj2)]
      have : 10 - index = (10 - (index + 1)) + 1 := by omega
      rw [this, candidates_succ]
      simp

theorem get_msg_queue_io_free (used : List Int) (qid : Int → Nat) (j0 : Nat) (hj0 : j0 < 10)
    (hfree : IO_MP_KEY_BASE + (j0 : Int) ∉ used)
    (hused : ∀ j : Nat, j < j0 → IO_MP_KEY_BASE + (j : Int) ∈ used) :
    get_msg_queue_io used qid =
      ⟨(qid (IO_MP_KEY_BASE + (j0 : Int)) : Int), some (IO_MP_KEY_BASE + (j0 : Int)),
        candidates 0 (j0 + 1)⟩ := by
  unfold get_msg_queue_io
  rw [get_msg_queue_io_loop_free used qid j0 hj0 hfree 10 0 [] (Nat.zero_le _) (by omega)
    (fun j _ hj => hused j hj)]
  simp

theorem get_msg_queue_io_full (used : List Int) (qid : Int → Nat)
    (hused : ∀ j : Nat, j < 10 → IO_MP_KEY_BASE + (j : Int) ∈ used) :
    get_msg_queue_io used qid = ⟨-1, none, candidates 0 10⟩ := by
  unfold get_msg_queue_io
  rw [get_msg_queue_io_loop_full used qid 10 0 [] rfl (by omega) (fun j _ hj => hused j hj)]
  simp

/-- Either every candidate is in use, or there is a smallest free candidate. -/
theorem least_free_candidate (used : List Int) :
    (∀ j : Nat, j < 10 → IO_MP_KEY_BASE + (j : Int) ∈ used) ∨
    ∃ j0 : Nat, j0 < 10 ∧ IO_MP_KEY_BASE + (j0 : Int) ∉ used ∧
      ∀ j : Nat, j < j0 → IO_MP_KEY_BASE + (j : Int) ∈ used := by
  by_cases h : ∃ j : Nat, j < 10 ∧ IO_MP_KEY_BASE + (j : Int) ∉ used
  · right
    classical
    refine ⟨Nat.find h, (Nat.find_spec h).1, (Nat.find_spec h).2, ?_⟩
    intro j hj
    have := Nat.find_min h hj
    by_contra hc
    exact this ⟨by have := (Nat.find_spec h).1; omega, hc⟩
  · left
    intro j hj
    by_contra hc
    exact h ⟨j, hj, hc⟩

theorem candidates_nodup (lo n : Nat) : (candidates lo n).Nodup := by
  unfold candidates
  refine List.Nodup.map ?_ (List.nodup_range' lo n)
  intro a b hab
  simp only at hab
  omega

theorem candidates_mem (n : Nat) (k : Int) (h : k ∈ candidates 0 n) :
    ∃ j : Nat, j < n ∧ k = IO_MP_KEY_BASE + (j : Int) := by
  simp only [candidates, List.mem_map, List.mem_range'_1] at h
  obtain ⟨j, hj, rfl⟩ := h
  exact ⟨j, by omega, rfl⟩

/-- A successful `get_msg_queue_io` stores a key that was free. -/
theorem get_msg_queue_io_ok (used : List Int) (qid : Int → Nat)
    (h : ¬ (get_msg_queue_io used qid).ret < 0) :
    ∃ key, (get_msg_queue_io used qid).ipc_key = some key ∧ key ∉ used ∧
      (get_msg_queue_io used qid).ret = (qid key : Int) := by
  rcases least_free_candidate used with hfull | ⟨j0, hj0, hfree, hused⟩
  · rw [get_msg_queue_io_full used qid hfull] at h
    exact absurd (by decide) h
  · rw [get_msg_queue_io_free used qid j0 hj0 hfree hused]
    exact ⟨_, rfl, hfree, rfl⟩

/-- The keys `main` of `client_mp.c` writes in its records are in use after
the loop step that made them, and pairwise distinct. -/
theorem main_loop_mp_keys (qid : Int → Nat) (st_size : List Char → Int)
    (upload_path download_path : List (List Char)) :
    ∀ (n i : Nat) (used ids : List Int) (es : List Entry),
      (∀ e ∈ es, ∃ k, e.locator = Arg.int k ∧ k ∈ used) → (es.map Entry.locator).Nodup →
      ((main_loop_mp qid st_size upload_path download_path n i used ids es).entries.map
        Entry.locator).Nodup := by
  intro n
  induction n with
  | zero => intro i used ids es _ hnd; exact hnd
  | succ n ih =>
    intro i used ids es hin hnd
    unfold main_loop_mp
    split
    · exact hnd
    · rename_i hok
      obtain ⟨key, hkey, hfree, _⟩ := get_msg_queue_io_ok used qid hok
      apply ih
      · intro e he
        simp only [List.mem_append, List.mem_singleton] at he
        rcases he with he | rfl
        · obtain ⟨k, hk1, hk2⟩ := hin e he
          exact ⟨k, hk1, List.mem_cons_of_mem _ hk2⟩
        · exact ⟨key, by simp [hkey], by simp [hkey]⟩
      · rw [List.map_append, List.nodup_append]
        refine ⟨hnd, by simp, ?_⟩
        intro a ha hb
        simp only [List.map_cons, List.map_nil, List.mem_singleton, hkey, Option.getD_some] at hb
        obtain ⟨e, he, rfl⟩ := List.mem_map.mp ha
        obtain ⟨k, hk1, hk2⟩ := hin e he
        rw [hk1] at hb
        simp only [Arg.int.injEq] at hb
        subst hb
        exact hfree hk2

/-- C12: message-queue channel allocation.  Given the keys in use,
`get_msg_queue_io` passes to `msgget` at most 10 candidate keys, from
`IO_MP_KEY_BASE` on, each once; when a candidate is free it returns the queue
made for the smallest free candidate and stores that key in `*ipc_key`; it
returns -1 exactly when the 10 candidates are in use; and the keys `main`
writes in the records of one batch are pairwise distinct. -/
theorem get_msg_queue_io_spec (used : List Int) (qid : Int → Nat) :
    (get_msg_queue_io used qid).tried.length ≤ 10 ∧
    (get_msg_queue_io used qid).tried.Nodup ∧
    (∀ k ∈ (get_msg_queue_io used qid).tried, ∃ j : Nat, j < 10 ∧ k = IO_MP_KEY_BASE + (j : Int)) ∧
    (∀ j0 : Nat, j0 < 10 → IO_MP_KEY_BASE + (j0 : Int) ∉ used →
      (∀ j : Nat, j < j0 → IO_MP_KEY_BASE + (j : Int) ∈ used) →
      get_msg_queue_io used qid =
        ⟨(qid (IO_MP_KEY_BASE + (j0 : Int)) : Int), some (IO_MP_KEY_BASE + (j0 : Int)),
          candidates 0 (j0 + 1)⟩) ∧
    ((get_msg_queue_io used qid).ret = -1 ↔
      ∀ j : Nat, j < 10 → IO_MP_KEY_BASE + (j : Int) ∈ used) ∧
    ∀ (st_size : List Char → Int) (upload_path download_path : List (List Char)),
      ((main_mp used qid st_size upload_path download_path).entries.map Entry.locator).Nodup := by
  have htried : ∃ n, n ≤ 10 ∧ (get_msg_queue_io used qid).tried = candidates 0 n := by
    rcases least_free_candidate used with hfull | ⟨j0, hj0, hfree, hused⟩
    · exact ⟨10, le_refl _, by rw [get_msg_queue_io_full used qid hfull]⟩
    · exact ⟨j0 + 1, by omega, by rw [get_msg_queue_io_free used qid j0 hj0 hfree hused]⟩
  obtain ⟨n, hn, htr⟩ := htried
  refine ⟨?_, ?_, ?_, ?_, ?_, ?_⟩
  · rw [htr]; simp [candidates]; exact hn
  · rw [htr]; exact candidates_nodup 0 n
  · intro k hk
    rw [htr] at hk
    obtain ⟨j, hj, hjk⟩ := candidates_mem n k hk
    exact ⟨j, by omega, hjk⟩
  · intro j0 hj0 hfree hused
    exact get_msg_queue_io_free used qid j0 hj0 hfree hused
  · constructor
    · intro hret
      rcases least_free_candidate used with hfull | ⟨j0, hj0, hfree, hused⟩
      · exact hfull
      · rw [get_msg_queue_io_free used qid j0 hj0 hfree hused] at hret
        simp only at hret
        omega
    · intro hfull
      rw [get_msg_queue_io_full used qid hfull]
  · intro st_size upload_path download_path
    exact main_loop_mp_keys qid st_size upload_path download_path _ 0 used [] []
      (by simp) (by simp)

/-! ### Which allocation of the batch fails -/

theorem candidates_append (lo a b : Nat) :
    candidates lo (a + b) = candidates lo a ++ candidates (lo + a) b := by
  unfold candidates
  rw [← List.map_append, List.range'_append_1, Nat.add_comm]

theorem free_keys_full (used : List Int)
    (h : ∀ j : Nat, j < 10 → IO_MP_KEY_BASE + (j : Int) ∈ used) : free_keys used = [] := by
  unfold free_keys
  rw [List.filter_eq_nil_iff]
  intro k hk
  obtain ⟨j, hj, rfl⟩ := candidates_mem 10 k hk
  simp [h j hj]

theorem free_keys_least (used : List Int) (j0 : Nat) (hj0 : j0 < 10)
    (hfree : IO_MP_KEY_BASE + (j0 : Int) ∉ used)
    (hused : ∀ j : Nat, j < j0 → IO_MP_KEY_BASE + (j : Int) ∈ used) :
    free_keys used = (IO_MP_KEY_BASE + (j0 : Int)) ::
      (candidates (j0 + 1) (9 - j0)).filter (fun k => decide (k ∉ used)) := by
  have hc : candidates 0 10 =
      candidates 0 j0 ++ (IO_MP_KEY_BASE + (j0 : Int)) :: candidates (j0 + 1) (9 - j0) := by
    have h := candidates_append 0 j0 ((9 - j0) + 1)
    rw [candidates_succ, Nat.zero_add] at h
    rw [← h]
    congr 1
    omega
  have hpre : (candidates 0 j0).filter (fun k => decide (k ∉ used)) = [] := by
    rw [List.filter_eq_nil_iff]
    intro k hk
    obtain ⟨j, hj, rfl⟩ := candidates_mem j0 k hk
    simp [hused j hj]
  unfold free_keys
  rw [hc, List.filter_append, hpre, List.nil_append, List.filter_cons,
    if_pos (by simpa using hfree)]

theorem free_keys_nodup (used : List Int) : (free_keys used).Nodup :=
  (candidates_nodup 0 10).filter _

/-- Once the first free key has a queue, the free keys are the others. -/
theorem free_keys_cons (used : List Int) (k : Int) (rest : List Int)
    (h : free_keys used = k :: rest) : free_keys (k :: used) = rest := by
  have hnd := free_keys_nodup used
  rw [h, List.nodup_cons] at hnd
  have hsplit : free_keys (k :: used) = (free_keys used).filter (fun x => x != k) := by
    unfold free_keys
    rw [List.filter_filter]
    congr 1
    funext x
    by_cases hxk : x = k <;> by_cases hxu : x ∈ used <;> simp [hxk, hxu]
  rw [hsplit, h, List.filter_cons, if_neg (by simp), List.filter_eq_self]
  intro x hx
  have : x ≠ k := fun hxk => hnd.1 (hxk ▸ hx)
  simpa using this

/-- With no free key left, `get_msg_queue_io` fails. -/
theorem get_msg_queue_io_none (used : List Int) (qid : Int → Nat) (h : free_keys used = []) :
    (get_msg_queue_io used qid).ret = -1 := by
  rcases least_free_candidate used with hfull | ⟨j0, hj0, hfree, hused⟩
  · rw [get_msg_queue_io_full used qid hfull]
  · rw [free_keys_least used j0 hj0 hfree hused] at h
    exact absurd h (by simp)

/-- The function `get_msg_queue_io` takes the first free key. -/
theorem get_msg_queue_io_some (used : List Int) (qid : Int → Nat) (k : Int) (rest : List Int)
    (h : free_keys used = k :: rest) :
    (get_msg_queue_io used qid).ret = (qid k : Int) ∧
    (get_msg_queue_io used qid).ipc_key = some k := by
  rcases least_free_candidate used with hfull | ⟨j0, hj0, hfree, hused⟩
  · rw [free_keys_full used hfull] at h
    exact absurd h (by simp)
  · rw [free_keys_least used j0 hj0 hfree hused] at h
    have hk : IO_MP_KEY_BASE + (j0 : Int) = k := (List.cons.inj h).1
    rw [get_msg_queue_io_free used qid j0 hj0 hfree hused, hk]
    exact ⟨rfl, rfl⟩

/-- The loop of `main` of `client_mp.c`, told from the free keys: it makes one
queue per free key, in order, and fails at the entry for which none is left. -/
theorem main_loop_mp_outcome (qid : Int → Nat) (st_size : List Char → Int)
    (upload_path download_path : List (List Char)) :
    ∀ (n i : Nat) (used ids : List Int) (es : List Entry),
      (n ≤ (free_keys used).length →
        (main_loop_mp qid st_size upload_path download_path n i used ids es).failed_at =
          none) ∧
      ((free_keys used).length < n →
        (main_loop_mp qid st_size upload_path download_path n i used ids es).failed_at =
          some (i + (free_keys used).length) ∧
        (main_loop_mp qid st_size upload_path download_path n i used ids es).created =
          (ids ++ (free_keys used).map (fun k => (qid k : Int))).map Arg.int) := by
  intro n
  induction n with
  | zero =>
    intro i used ids es
    exact ⟨fun _ => rfl, fun h => absurd h (Nat.not_lt_zero _)⟩
  | succ n ih =>
    intro i used ids es
    cases hfk : free_keys used with
    | nil =>
      have hret := get_msg_queue_io_none used qid hfk
      have hlt : (get_msg_queue_io used qid).ret < 0 := by rw [hret]; decide
      unfold main_loop_mp
      rw [if_pos hlt]
      refine ⟨fun h => absurd h (by simp), fun _ => ⟨by simp, by simp⟩⟩
    | cons k rest =>
      obtain ⟨hret, hkey⟩ := get_msg_queue_io_some used qid k rest hfk
      have hge : ¬ (get_msg_queue_io used qid).ret < 0 := by rw [hret]; omega
      have hrest := free_keys_cons used k rest hfk
      unfold main_loop_mp
      rw [if_neg hge, hkey, hret]
      simp only [Option.getD_some]
      have hih := ih (i + 1) (k :: used) (ids ++ [(qid k : Int)])
        (es ++ [⟨decide (i < upload_path.length),
          st_size (get_last_filename (entry_path upload_path download_path i)),
          get_last_filename (entry_path upload_path download_path i), Arg.int k⟩])
      rw [hrest] at hih
      refine ⟨fun h => hih.1 (by simpa using h), fun h => ?_⟩
      obtain ⟨h1, h2⟩ := hih.2 (by simpa using h)
      refine ⟨?_, ?_⟩
      · rw [h1]
        simp only [List.length_cons, Option.some.injEq]
        omega
      · rw [h2]
        simp

/-- The loop of `main` of `client_pipe.c`, told from the answers of `mkfifo`:
it runs to its end when every `mkfifo` succeeds, and fails at the first entry
whose `mkfifo` fails. -/
theorem main_loop_pipe_outcome (pid : Int) (cnt : Nat) (mkfifo_ok : List Char → Bool)
    (write_ok : Bool) (st_size : List Char → Int)
    (upload_path download_path : List (List Char)) :
    ∀ (n i : Nat) (es : List Entry),
      ((∀ j : Nat, i ≤ j → j < i + n → mkfifo_ok (fifo_path pid j) = true) →
        (main_loop_pipe pid cnt mkfifo_ok write_ok st_size upload_path download_path n i
          es).failed_at = none) ∧
      (∀ k : Nat, i ≤ k → k < i + n →
        (∀ j : Nat, i ≤ j → j < k → mkfifo_ok (fifo_path pid j) = true) →
        mkfifo_ok (fifo_path pid k) = false →
        (main_loop_pipe pid cnt mkfifo_ok write_ok st_size upload_path download_path n i
          es).failed_at = some k) := by
  intro n
  induction n with
  | zero =>
    intro i es
    refine ⟨fun _ => ?_, fun k h1 h2 => by omega⟩
    unfold main_loop_pipe
    split <;> rfl
  | succ n ih =>
    intro i es
    refine ⟨fun hall => ?_, fun k hik hkn hbefore hfail => ?_⟩
    · have hi := hall i (Nat.le_refl _) (by omega)
      unfold main_loop_pipe
      rw [if_neg (by simp [hi])]
      exact (ih (i + 1) _).1 (fun j h1 h2 => hall j (by omega) (by omega))
    · unfold main_loop_pipe
      by_cases hki : k = i
      · subst hki
        rw [if_pos hfail]
      · have hi := hbefore i (Nat.le_refl _) (by omega)
        rw [if_neg (by simp [hi])]
        exact (ih (i + 1) _).2 k (by omega) (by omega)
          (fun j h1 h2 => hbefore j (by omega) h2) hfail

/-! ### The batch `main` builds -/

theorem main_loop_mp_failed (qid : Int → Nat) (st_size : List Char → Int)
    (upload_path download_path : List (List Char)) :
    ∀ (n i : Nat) (used ids : List Int) (es : List Entry) (k : Nat), ids.length = i →
      (main_loop_mp qid st_size upload_path download_path n i used ids es).failed_at = some k →
      (main_loop_mp qid st_size upload_path download_path n i used ids es).request = none ∧
      (main_loop_mp qid st_size upload_path download_path n i used ids es).workers = [] ∧
      (main_loop_mp qid st_size upload_path download_path n i used ids es).created.length = k ∧
      (main_loop_mp qid st_size upload_path download_path n i used ids es).destroyed =
        (main_loop_mp qid st_size upload_path download_path n i used ids es).created := by
  intro n
  induction n with
  | zero => intro i used ids es k _ h; simp [main_loop_mp] at h
  | succ n ih =>
    intro i used ids es k hlen h
    unfold main_loop_mp at h ⊢
    split
    · rename_i hfail
      rw [if_pos hfail] at h
      simp only [Option.some.injEq] at h
      subst h
      simp [hlen]
    · rename_i hok
      rw [if_neg hok] at h
      exact ih _ _ _ _ k (by simp [hlen]) h

theorem length_fifo_paths (pid : Int) (cnt : Nat) : (fifo_paths pid cnt).length = cnt := by
  simp [fifo_paths]

theorem main_loop_pipe_failed (pid : Int) (cnt : Nat) (mkfifo_ok : List Char → Bool)
    (write_ok : Bool) (st_size : List Char → Int)
    (upload_path download_path : List (List Char)) :
    ∀ (n i : Nat) (es : List Entry) (k : Nat), i + n = cnt →
      (main_loop_pipe pid cnt mkfifo_ok write_ok st_size upload_path download_path n i
        es).failed_at = some k →
      (main_loop_pipe pid cnt mkfifo_ok write_ok st_size upload_path download_path n i
        es).request = none ∧
      (main_loop_pipe pid cnt mkfifo_ok write_ok st_size upload_path download_path n i
        es).workers = [] ∧
      (main_loop_pipe pid cnt mkfifo_ok write_ok st_size upload_path download_path n i
        es).created = ((fifo_paths pid cnt).take k).map Arg.str ∧
      (main_loop_pipe pid cnt mkfifo_ok write_ok st_size upload_path download_path n i
        es).destroyed = (fifo_paths pid cnt).map Arg.str ∧ k < cnt := by
  intro n
  induction n with
  | zero =>
    intro i es k _ h
    unfold main_loop_pipe at h
    split at h <;> simp at h
  | succ n ih =>
    intro i es k hsum h
    unfold main_loop_pipe at h ⊢
    split
    · rename_i hfail
      rw [if_pos hfail] at h
      simp only [Option.some.injEq] at h
      subst h
      exact ⟨rfl, rfl, rfl, rfl, by omega⟩
    · rename_i hok
      rw [if_neg hok] at h
      exact ih _ _ k (by omega) h

/-- The keys in use when `main` of `client_mp.c` allocates for the entry that
follows those served by the free keys `a`. -/
theorem free_keys_taken (a : List Int) :
    ∀ (used b : List Int), free_keys used = a ++ b → free_keys (a.reverse ++ used) = b := by
  induction a with
  | nil => intro used b h; simpa using h
  | cons x a ih =>
    intro used b h
    have hx := free_keys_cons used x (a ++ b) h
    have := ih (x :: used) b hx
    simpa using this

/-- C11: no partial submission.  Let `i` be an index of the batch.  In
`client_mp`, when exactly `i` of the ten candidate keys are free at the start,
the entries before `i` take them, the allocation of the entry `i` finds every
candidate in use and returns -1, and `main` stops there: it has made the `i`
queues of the free keys, it sends no request, starts no worker and has removed
every queue it made.  In `client_pipe`, when `mkfifo` succeeds for the entries
before `i` and fails for the entry `i`, `main` stops there: it has made the
first `i` FIFOs, it sends no request, starts no worker and has unlinked every
FIFO it made. -/
theorem no_partial_submission (i : Nat) (st_size : List Char → Int)
    (upload_path download_path : List (List Char))
    (hi : i < upload_path.length + download_path.length) :
    (∀ (used : List Int) (qid : Int → Nat), (free_keys used).length = i →
      (get_msg_queue_io ((free_keys used).reverse ++ used) qid).ret = -1 ∧
      (main_mp used qid st_size upload_path download_path).failed_at = some i ∧
      (main_mp used qid st_size upload_path download_path).request = none ∧
      (main_mp used qid st_size upload_path download_path).workers = [] ∧
      (main_mp used qid st_size upload_path download_path).created =
        (free_keys used).map (fun k => Arg.int (qid k)) ∧
      (main_mp used qid st_size upload_path download_path).created.length = i ∧
      (main_mp used qid st_size upload_path download_path).destroyed =
        (main_mp used qid st_size upload_path download_path).created) ∧
    (∀ (pid : Int) (mkfifo_ok : List Char → Bool) (write_ok : Bool),
      (∀ j : Nat, j < i → mkfifo_ok (fifo_path pid j) = true) →
      mkfifo_ok (fifo_path pid i) = false →
      (main_pipe pid mkfifo_ok write_ok st_size upload_path download_path).failed_at = some i ∧
      (main_pipe pid mkfifo_ok write_ok st_size upload_path download_path).request = none ∧
      (main_pipe pid mkfifo_ok write_ok st_size upload_path download_path).workers = [] ∧
      (main_pipe pid mkfifo_ok write_ok st_size upload_path download_path).created =
        (List.range i).map (fun (j : Nat) => Arg.str (fifo_path pid j)) ∧
      (main_pipe pid mkfifo_ok write_ok st_size upload_path download_path).created.length = i ∧
      ∀ c ∈ (main_pipe pid mkfifo_ok write_ok st_size upload_path download_path).created,
        c ∈ (main_pipe pid mkfifo_ok write_ok st_size upload_path download_path).destroyed) := by
  constructor
  · intro used qid hlen
    have hout := (main_loop_mp_outcome qid st_size upload_path download_path
      (upload_path.length + download_path.length) 0 used [] []).2 (by omega)
    rw [hlen, Nat.zero_add] at hout
    obtain ⟨hfail, hcre⟩ := hout
    have hfail' : (main_mp used qid st_size upload_path download_path).failed_at = some i :=
      hfail
    have hcre' : (main_mp used qid st_size upload_path download_path).created =
        (free_keys used).map (fun k => Arg.int (qid k)) := by
      unfold main_mp
      rw [hcre]
      simp
    obtain ⟨h1, h2, h3, h4⟩ :=
      main_loop_mp_failed qid st_size upload_path download_path _ 0 used [] [] i rfl hfail
    refine ⟨?_, hfail', h1, h2, hcre', h3, h4⟩
    exact get_msg_queue_io_none _ qid
      (free_keys_taken (free_keys used) used [] (by simp))
  · intro pid mkfifo_ok write_ok hbefore hfail
    have hf := (main_loop_pipe_outcome pid (upload_path.length + download_path.length) mkfifo_ok
      write_ok st_size upload_path download_path
      (upload_path.length + download_path.length) 0 []).2 i (Nat.zero_le _) (by omega)
      (fun j _ hj => hbefore j hj) hfail
    obtain ⟨h1, h2, h3, h4, h5⟩ :=
      main_loop_pipe_failed pid _ mkfifo_ok write_ok st_size upload_path download_path _ 0 [] i
        (by simp) hf
    have hcre : (main_pipe pid mkfifo_ok write_ok st_size upload_path download_path).created =
        (List.range i).map (fun (j : Nat) => Arg.str (fifo_path pid j)) := by
      unfold main_pipe
      rw [h3]
      unfold fifo_paths
      rw [← List.map_take, List.take_range, Nat.min_eq_left (by omega), List.map_map]
      rfl
    refine ⟨hf, h1, h2, hcre, ?_, ?_⟩
    · rw [hcre]; simp
    · intro c hc
      unfold main_pipe at hc ⊢
      rw [h3] at hc
      rw [h4]
      obtain ⟨p, hp, rfl⟩ := List.mem_map.mp hc
      exact List.mem_map.mpr ⟨p, List.take_subset _ _ hp, rfl⟩

/-- Runs of C11.  Two uploads over message queues when only the first
candidate key is free: the second allocation fails and the queue 0 made for
the first is removed.  Two uploads over FIFOs when `mkfifo` succeeds on the
first path only: the FIFO of the first entry is unlinked. -/
theorem no_partial_submission_witness :
    1 < ["a.txt".toList, "b.txt".toList].length + ([] : List (List Char)).length ∧
    (free_keys used_but_first).length = 1 ∧
    ((get_msg_queue_io ((free_keys used_but_first).reverse ++ used_but_first)
        qid_from_zero).ret = -1 ∧
      (main_mp used_but_first qid_from_zero (fun _ => 12) ["a.txt".toList, "b.txt".toList]
        []).failed_at = some 1 ∧
      (main_mp used_but_first qid_from_zero (fun _ => 12) ["a.txt".toList, "b.txt".toList]
        []).request = none ∧
      (main_mp used_but_first qid_from_zero (fun _ => 12) ["a.txt".toList, "b.txt".toList]
        []).workers = [] ∧
      (main_mp used_but_first qid_from_zero (fun _ => 12) ["a.txt".toList, "b.txt".toList]
        []).created = (free_keys used_but_first).map (fun k => Arg.int (qid_from_zero k)) ∧
      (main_mp used_but_first qid_from_zero (fun _ => 12) ["a.txt".toList, "b.txt".toList]
        []).created.length = 1 ∧
      (main_mp used_but_first qid_from_zero (fun _ => 12) ["a.txt".toList, "b.txt".toList]
        []).destroyed =
        (main_mp used_but_first qid_from_zero (fun _ => 12) ["a.txt".toList, "b.txt".toList]
          []).created) ∧
    (main_mp used_but_first qid_from_zero (fun _ => 12) ["a.txt".toList, "b.txt".toList]
      []).destroyed = [Arg.int 0] ∧
    (main_pipe 4242 (mkfifo_first 4242 1) true (fun _ => 12) ["a.txt".toList, "b.txt".toList]
      []).failed_at = some 1 ∧
    (main_pipe 4242 (mkfifo_first 4242 1) true (fun _ => 12) ["a.txt".toList, "b.txt".toList]
      []).request = none ∧
    (main_pipe 4242 (mkfifo_first 4242 1) true (fun _ => 12) ["a.txt".toList, "b.txt".toList]
      []).workers = [] ∧
    (main_pipe 4242 (mkfifo_first 4242 1) true (fun _ => 12) ["a.txt".toList, "b.txt".toList]
      []).created = [Arg.str "./fifo/4242_0".toList] ∧
    (main_pipe 4242 (mkfifo_first 4242 1) true (fun _ => 12) ["a.txt".toList, "b.txt".toList]
      []).destroyed = [Arg.str "./fifo/4242_0".toList, Arg.str "./fifo/4242_1".toList] :=
  have hi : 1 < ["a.txt".toList, "b.txt".toList].length + ([] : List (List Char)).length := by
    decide
  have hfree : (free_keys used_but_first).length = 1 := by decide
  have hbefore : ∀ j : Nat, j < 1 → mkfifo_first 4242 1 (fifo_path 4242 j) = true := by
    intro j hj
    have hj0 : j = 0 := by omega
    subst hj0
    decide
  have h := no_partial_submission 1 (fun _ => 12) ["a.txt".toList, "b.txt".toList] [] hi
  have hp := h.2 4242 (mkfifo_first 4242 1) true hbefore (by decide)
  ⟨hi, hfree, h.1 used_but_first qid_from_zero hfree, by decide, hp.1, hp.2.1, hp.2.2.1,
    by decide, by decide⟩

/-- C16, the code at the failing input: for the upload path `dir/a.txt`,
`main` of both clients calls `stat` on the bare name `a.txt`, so the size in the
record is the size of `./a.txt` (3 here), or whatever `st` held when there is
no such file, while `upload` opens and sends `dir/a.txt` (12 bytes). -/
theorem upload_size_of_basename :
    (upload_file fs_two_files ["dir/a.txt".toList] 0).map List.length = some 12 ∧
    (main_mp [] qid_from_zero (stat_filesize fs_two_files 0) ["dir/a.txt".toList]
      []).entries.map Entry.filesize = [3] ∧
    (main_mp [] qid_from_zero (stat_filesize fs_two_files 0) ["dir/a.txt".toList]
      []).request = some "1 3 a.txt 60051\n".toList ∧
    (main_pipe 4242 (fun _ => true) true (stat_filesize fs_two_files 0) ["dir/a.txt".toList]
      []).entries.map Entry.filesize = [3] ∧
    (main_mp [] qid_from_zero (stat_filesize fs_one_file 77) ["dir/a.txt".toList]
      []).entries.map Entry.filesize = [77] := by
  refine ⟨by decide, by decide, by decide, by decide, by decide⟩

/-- C17, the code at the failing input: when the kernel gives the identifier
0 to the first queue of the batch, `msgq_ids` is `[0, 1]` and `cleanup_msq`
removes the queue 1 only; in every state of the table it passes to
`msgctl(IPC_RMID)` exactly the identifiers of the first `msgq_cnt` slots that
are not 0, so never the identifier 0.  `cleanup_fifo` unlinks every path of a
table without null slot. -/
theorem cleanup_msq_skips_zero :
    (main_mp [] qid_from_zero (fun _ => 12) ["a.txt".toList] ["b.txt".toList]).created =
      [Arg.int 0, Arg.int 1] ∧
    (main_mp [] qid_from_zero (fun _ => 12) ["a.txt".toList] ["b.txt".toList]).table =
      [Arg.int 0, Arg.int 1] ∧
    cleanup_msq (some [0, 1]) 2 = [1] ∧
    (∀ (ids : List Int) (cnt : Nat) (id : Int),
      id ∈ cleanup_msq (some ids) cnt ↔ id ∈ ids.take cnt ∧ id ≠ 0) ∧
    (∀ (ids : List Int) (cnt : Nat), (0 : Int) ∉ cleanup_msq (some ids) cnt) ∧
    ∀ paths : List (List Char), cleanup_fifo (some (paths.map some)) paths.length = paths := by
  refine ⟨by decide, by decide, by decide, ?_, ?_, ?_⟩
  · intro ids cnt id
    simp [cleanup_msq, List.mem_filter]
  · intro ids cnt
    simp [cleanup_msq, List.mem_filter]
  · intro paths
    have h : (paths.map some).take paths.length = paths.map some := by
      apply List.take_of_length_le
      simp
    simp only [cleanup_fifo, h]
    induction paths with
    | nil => rfl
    | cons p ps ih => simp [List.filterMap_cons]

/-! ### The tags of the messages -/

theorem tags_from_succ (first : Int) (n : Nat) :
    tags_from first (n + 1) = first :: tags_from (first + 1) n := by
  simp only [tags_from, List.range_succ_eq_map, List.map_cons, List.map_map]
  refine congrArg₂ _ (by simp) ?_
  apply List.map_congr_left
  intro k _
  simp only [Function.comp_apply, Nat.succ_eq_add_one, Nat.cast_add, Nat.cast_one]
  omega

theorem put_tags_append (a b : List Ev) : put_tags (a ++ b) = put_tags a ++ put_tags b := by
  induction a with
  | nil => rfl
  | cons e a ih =>
    cases e with
    | snd m d r => cases r <;> simp [put_tags, ih]
    | hdr m s r => cases r <;> simp [put_tags, ih]
    | _ => simp [put_tags, ih]

theorem sent_data_append (a b : List Ev) : sent_data (a ++ b) = sent_data a ++ sent_data b := by
  induction a with
  | nil => rfl
  | cons e a ih =>
    cases e with
    | snd m d r => cases r <;> simp [sent_data, ih]
    | _ => simp [sent_data, ih]

theorem quiet_polls (pre : List (Option Stat)) :
    put_tags (pre.map Ev.poll) = [] ∧ sent_data (pre.map Ev.poll) = [] ∧
    sent (pre.map Ev.poll) = [] := by
  induction pre with
  | nil => exact ⟨rfl, rfl, rfl⟩
  | cons p pre ih => simpa [put_tags, sent_data, sent] using ih

theorem quiet_drain_upload_mp (polls : List (Option Stat)) :
    put_tags (drain_upload_mp polls).2 = [] ∧ sent_data (drain_upload_mp polls).2 = [] := by
  induction polls with
  | nil => exact ⟨rfl, rfl⟩
  | cons a polls ih =>
    cases a with
    | none => exact ⟨rfl, rfl⟩
    | some st =>
      unfold drain_upload_mp
      split
      · exact ⟨rfl, rfl⟩
      · rw [after_snd, put_tags_append, sent_data_append, ih.1, ih.2]
        exact ⟨rfl, rfl⟩

theorem after_cons (e : Ev) (r : Outcome × List Ev) : (after [e] r).2 = e :: r.2 := rfl

/-- The messages `upload` of `client_mp.c` puts on the queue from the tag
`mtype` on: consecutive tags, chunks of the file in order, all of them when the
function returns 1. -/
theorem tags_upload_loop_mp : ∀ (chunks : List (List Nat)) (mtype : Int) (snds : List Bool)
    (polls : List (Option Stat)),
    put_tags (upload_loop_mp chunks mtype snds polls).2 =
      tags_from mtype (sent_data (upload_loop_mp chunks mtype snds polls).2).length ∧
    (∃ rest, chunks = sent_data (upload_loop_mp chunks mtype snds polls).2 ++ rest ∧
      ((upload_loop_mp chunks mtype snds polls).1 = Outcome.ret 1 → rest = [])) ∧
    sent (upload_loop_mp chunks mtype snds polls).2 =
      sent_data (upload_loop_mp chunks mtype snds polls).2 := by
  intro chunks
  induction chunks with
  | nil =>
    intro mtype snds polls
    have h := quiet_drain_upload_mp polls
    have hrun : upload_loop_mp [] mtype snds polls = drain_upload_mp polls := rfl
    rw [hrun, h.1, h.2, sent_drain_upload_mp]
    exact ⟨rfl, ⟨[], rfl, fun _ => rfl⟩, rfl⟩
  | cons c cs ih =>
    intro mtype snds polls
    match snds with
    | [] => exact ⟨rfl, ⟨c :: cs, rfl, by simp [upload_loop_mp]⟩, rfl⟩
    | false :: _ => exact ⟨rfl, ⟨c :: cs, rfl, by simp [upload_loop_mp]⟩, rfl⟩
    | true :: snds =>
      obtain ⟨h1, ⟨rest, h2, h3⟩, h4⟩ := ih (mtype + 1) snds polls
      have hrun : upload_loop_mp (c :: cs) mtype (true :: snds) polls =
          after [Ev.snd mtype c Res.ok] (upload_loop_mp cs (mtype + 1) snds polls) := rfl
      rw [hrun, after_fst, after_cons]
      simp only [put_tags, sent_data, sent, List.length_cons, tags_from_succ]
      refine ⟨by rw [h1], ⟨rest, ?_, h3⟩, by rw [h4]⟩
      rw [List.cons_append, ← h2]

theorem quiet_wait_capacity_mp (polls : List (Option Stat)) (msqstat : Stat) :
    put_tags (wait_capacity_mp msqstat polls).2 = [] ∧
    sent_data (wait_capacity_mp msqstat polls).2 = [] := by
  rcases wait_capacity_mp_spec polls msqstat with ⟨pre, h⟩ | ⟨pre, a, st, left, h, _⟩
  · rw [h]; exact ⟨(quiet_polls pre).1, (quiet_polls pre).2.1⟩
  · rw [h]
    simp only [put_tags_append, sent_data_append, (quiet_polls pre).1, (quiet_polls pre).2.1]
    exact ⟨rfl, rfl⟩

theorem quiet_drain_download_mp (polls : List (Option Stat)) :
    put_tags (drain_download_mp polls).2 = [] ∧ sent_data (drain_download_mp polls).2 = [] := by
  obtain ⟨pre, h⟩ := drain_download_mp_polls polls
  rw [h]
  exact ⟨(quiet_polls pre).1, (quiet_polls pre).2.1⟩

/-- The messages the loop of `send_download` of `server_mp.c` puts on the
queue after a message of tag `mtype`: consecutive tags from `mtype + 1` on,
chunks of the file in order, all of them when the function returns 0. -/
theorem tags_download_loop_mp : ∀ (chunks : List (List Nat)) (mtype : Int) (msqstat : Stat)
    (snds : List Bool) (polls : List (Option Stat)),
    put_tags (download_loop_mp chunks mtype msqstat snds polls).2 =
      tags_from (mtype + 1)
        (sent_data (download_loop_mp chunks mtype msqstat snds polls).2).length ∧
    (∃ rest, chunks = sent_data (download_loop_mp chunks mtype msqstat snds polls).2 ++ rest ∧
      ((download_loop_mp chunks mtype msqstat snds polls).1 = Outcome.ret 0 → rest = [])) ∧
    sent (download_loop_mp chunks mtype msqstat snds polls).2 =
      sent_data (download_loop_mp chunks mtype msqstat snds polls).2 := by
  intro chunks
  induction chunks with
  | nil =>
    intro mtype msqstat snds polls
    have h := quiet_drain_download_mp polls
    have hrun : download_loop_mp [] mtype msqstat snds polls = drain_download_mp polls := rfl
    rw [hrun, h.1, h.2, sent_drain_download_mp]
    exact ⟨rfl, ⟨[], rfl, fun _ => rfl⟩, rfl⟩
  | cons c cs ih =>
    intro mtype msqstat snds polls
    unfold download_loop_mp
    have hq := quiet_wait_capacity_mp polls msqstat
    have hs := sent_wait_capacity_mp polls msqstat
    rcases hwr : wait_capacity_mp msqstat polls with ⟨_ | ⟨st2, polls2⟩, evs⟩
    · rw [hwr] at hq hs
      simp only at hq hs ⊢
      rw [hq.1, hq.2, hs]
      exact ⟨rfl, ⟨c :: cs, rfl, by simp⟩, rfl⟩
    · rw [hwr] at hq hs
      simp only at hq hs ⊢
      match snds with
      | [] =>
        simp only [put_tags_append, sent_data_append, sent_append, hq.1, hq.2, hs, put_tags,
          sent_data, sent, List.nil_append]
        exact ⟨rfl, ⟨c :: cs, rfl, by simp⟩, trivial⟩
      | false :: _ =>
        simp only [put_tags_append, sent_data_append, sent_append, hq.1, hq.2, hs, put_tags,
          sent_data, sent, List.nil_append]
        exact ⟨rfl, ⟨c :: cs, rfl, by simp⟩, trivial⟩
      | true :: snds =>
        obtain ⟨h1, ⟨rest, h2, h3⟩, h4⟩ := ih (mtype + 1) st2 snds polls2
        simp only [after_fst, after_snd, put_tags_append, sent_data_append, sent_append, hq.1,
          hq.2, hs, put_tags, sent_data, sent, List.nil_append, List.cons_append,
          List.length_cons, tags_from_succ]
        refine ⟨by rw [h1], ⟨rest, ?_, h3⟩, by rw [h4]⟩
        rw [← h2]

theorem chunk_bound_of_split (content : List Nat) (a rest : List (List Nat))
    (h : file_chunks content = a ++ rest) : ∀ d ∈ a, d.length ≤ MSG_BUFFER_SZ := by
  intro d hd
  exact (file_chunks_bounds content d (by rw [h]; simp [hd])).2

/-- C18: sequence tags over message queues.  For every file and every world,
the `k`-th message `upload` of `client_mp.c` puts on the queue is a chunk with
tag `k`, and the `k`-th message `send_download` of `server_mp.c` puts on the
queue, the 4-byte header being the first, has tag `k`, counting from 1; every
payload has at most `MSG_BUFFER_SZ` bytes; the chunks are slices of the file in
order, and when the procedure returns success their concatenation is the
content of the file. -/
theorem sequence_tags (w : World) (content : List Nat) (hfile : w.file = some content) :
    (put_tags (upload_mp w).2 = tags_from 1 (sent (upload_mp w).2).length ∧
      sent (upload_mp w).2 = sent_data (upload_mp w).2 ∧
      (∀ d ∈ sent (upload_mp w).2, d.length ≤ MSG_BUFFER_SZ) ∧
      (∃ rest, content = (sent_data (upload_mp w).2).flatten ++ rest) ∧
      ((upload_mp w).1 = Outcome.ret 1 → (sent_data (upload_mp w).2).flatten = content)) ∧
    (put_tags (send_download_mp w).2 = tags_from 1 (sent (send_download_mp w).2).length ∧
      (∀ d ∈ sent (send_download_mp w).2, d.length ≤ MSG_BUFFER_SZ) ∧
      (∃ rest, content = (sent_data (send_download_mp w).2).flatten ++ rest) ∧
      ((send_download_mp w).1 = Outcome.ret 0 →
        sent (send_download_mp w).2 =
          le32 (wrap32 content.length) :: sent_data (send_download_mp w).2 ∧
        (sent_data (send_download_mp w).2).flatten = content)) := by
  constructor
  · unfold upload_mp
    rw [hfile]
    simp only
    split
    · exact ⟨rfl, rfl, by simp [sent], ⟨content, rfl⟩, by simp⟩
    · obtain ⟨h1, ⟨rest, h2, h3⟩, h4⟩ := tags_upload_loop_mp (file_chunks content) 1 w.snds w.polls
      refine ⟨by rw [h1, h4], h4, ?_, ?_, ?_⟩
      · rw [h4]; exact chunk_bound_of_split content _ rest h2
      · refine ⟨rest.flatten, ?_⟩
        rw [← List.flatten_append, ← h2, file_chunks_flatten]
      · intro hret
        have := h3 hret
        subst this
        rw [List.append_nil] at h2
        rw [← h2, file_chunks_flatten]
  · unfold send_download_mp
    rw [hfile]
    simp only
    split
    · exact ⟨rfl, by simp [sent], ⟨content, rfl⟩, by simp⟩
    · match hs : w.snds with
      | [] => exact ⟨rfl, by simp [sent], ⟨content, rfl⟩, by simp⟩
      | false :: _ => exact ⟨rfl, by simp [sent], ⟨content, rfl⟩, by simp⟩
      | true :: snds =>
        obtain ⟨h1, ⟨rest, h2, h3⟩, h4⟩ :=
          tags_download_loop_mp (file_chunks content) 1 w.msqstat0 snds w.polls
        rw [after_fst, after_cons]
        simp only [put_tags, sent, sent_data, List.length_cons, tags_from_succ]
        refine ⟨by rw [h1, h4], ?_, ?_, ?_⟩
        · intro d hd
          simp only [List.mem_cons] at hd
          rcases hd with rfl | hd
          · simp [le32, MSG_BUFFER_SZ]
          · rw [h4] at hd
            exact chunk_bound_of_split content _ rest h2 d hd
        · refine ⟨rest.flatten, ?_⟩
          rw [← List.flatten_append, ← h2, file_chunks_flatten]
        · intro hret
          have := h3 hret
          subst this
          rw [List.append_nil] at h2
          exact ⟨by rw [h4], by rw [← h2, file_chunks_flatten]⟩

/-- A run of C18: the one-byte file `[7]`, sent as message 1 by `upload` and
as message 2, after the header, by `send_download`. -/
theorem sequence_tags_witness :
    world_send.file = some [7] ∧
    put_tags (upload_mp world_send).2 = [1] ∧
    put_tags (send_download_mp world_send).2 = [1, 2] ∧
    put_tags (upload_mp world_send).2 = tags_from 1 (sent (upload_mp world_send).2).length ∧
    put_tags (send_download_mp world_send).2 =
      tags_from 1 (sent (send_download_mp world_send).2).length :=
  have h := sequence_tags world_send [7] rfl
  ⟨rfl, by decide, by decide, h.1.1, h.2.1⟩

/-! ### One scan per line -/

end FtIpc
